import Mathlib

/-!
Verification of the quickmp CPU matrix-profile kernels.

The C++ sources (src/cpu/stomp.cpp, src/cpu/dot_product.cpp,
src/cpu/backend.cpp) are shallowly embedded over exact real arithmetic:
IEEE-754 doubles become `ℝ`, buffers become total functions `ℕ → ℝ`
(reads and writes only ever touch indices below the allocated length
`L = n - m + 1`), `for` loops become `List.foldl` over the literal index
ranges, buffer stores become `Function.update`, and the raw-Euclidean
kernel's `INFINITY` exclusion sentinel becomes `⊤` in `WithTop ℝ`.
Functions that the C++ can make fail return `Except Err`.

The windowed-statistics routines `compute_mean_std` and
`compute_squared_sum` are declared in src/cpu/internal.hpp and called
throughout, but their definitions are not part of the sources; they are
modelled from the specification (§4.1), as is the body of
`sliding_dot_product_fft` (whose FFT calls go to the external pocketfft
library).
-/

noncomputable section

namespace QuickMP

open Finset

/-- Error kinds of the façade (spec §7). -/
inductive Err where
  | ShapeMismatch
  | NotInitialized
  | AlreadyInitialized
  | InvalidDevice
  deriving DecidableEq

/-- Exclusion-zone width: `size_t excl_zone = std::ceil(m / 4.0)` from
stomp.cpp line 8, i.e. the ceiling of m/4, as a natural number. -/
def excl_zone (m : ℕ) : ℕ := (m + 3) / 4

/-- Modelled from the spec: the per-window mean produced by
`compute_mean_std` (§4.1, μ[i] = (1/m)·Σ T[i..i+m]); the implementation is
declared in cpu/internal.hpp but absent from the sources. -/
def win_mu (T : ℕ → ℝ) (m i : ℕ) : ℝ := (∑ k ∈ Finset.range m, T (i + k)) / m

/-- Modelled from the spec: the per-window standard deviation produced by
`compute_mean_std` (§4.1, σ[i] = √((1/m)·Σ T[i..i+m]² − μ[i]²), a variance
made negative by cancellation being clamped to 0 before the square root). -/
def win_sigma (T : ℕ → ℝ) (m i : ℕ) : ℝ :=
  Real.sqrt (max 0 ((∑ k ∈ Finset.range m, T (i + k) ^ 2) / m - win_mu T m i ^ 2))

/-- Modelled from the spec: `compute_mean_std` fails with ShapeMismatch when
n < m and otherwise fills μ and σ (§4.1); the implementation is declared in
cpu/internal.hpp but absent from the sources. -/
def compute_mean_std (T : ℕ → ℝ) (n m : ℕ) : Except Err ((ℕ → ℝ) × (ℕ → ℝ)) :=
  if n < m then .error .ShapeMismatch
  else .ok (fun i => win_mu T m i, fun i => win_sigma T m i)

/-- Modelled from the spec: the per-window squared sum S[i] = Σ T[i+k]²
(§4.1 `squared_sum`); absent from the sources. -/
def win_S (T : ℕ → ℝ) (m i : ℕ) : ℝ := ∑ k ∈ Finset.range m, T (i + k) ^ 2

/-- Modelled from the spec: `compute_squared_sum` fails with ShapeMismatch
when n < m and otherwise fills S (§4.1); absent from the sources. -/
def compute_squared_sum (T : ℕ → ℝ) (n m : ℕ) : Except Err (ℕ → ℝ) :=
  if n < m then .error .ShapeMismatch else .ok (fun i => win_S T m i)

/-- The inverse standard deviation as the self-join builds it:
`sigma_inv[i] = 1.0 / sigma_inv[i]` (stomp.cpp lines 21–23) applied to the
σ array returned by `compute_mean_std`.  (Over `ℝ`, `1 / 0 = 0`, which is
exactly the σ⁻¹ = 0 convention §4.1 prescribes for degenerate windows.) -/
def sigma_inv (T : ℕ → ℝ) (m i : ℕ) : ℝ := 1 / win_sigma T m i

/-- `sliding_dot_product_naive` (dot_product.cpp lines 38–50): zero QT,
then for each j < m add `Q[j]*T[i+j]` into every `QT[i]`, i < n−m+1. -/
def sliding_dot_product_naive (T Q : ℕ → ℝ) (n m : ℕ) : ℕ → ℝ :=
  (List.range m).foldl
    (fun QT j =>
      (List.range (n - m + 1)).foldl
        (fun QT i => Function.update QT i (QT i + Q j * T (i + j))) QT)
    (fun _ => 0)

/-- Modelled from the spec: `sliding_dot_product_fft` (dot_product.cpp
lines 7–36) delegates to the external pocketfft library, which is not part
of the sources; over exact real arithmetic the zero-padded FFT convolution
read back on indices [m−1, n) is exactly QT[i] = Σ Q[k]·T[i+k] (§4.2). -/
def sliding_dot_product_fft (T Q : ℕ → ℝ) (n m : ℕ) : ℕ → ℝ :=
  fun i => ∑ k ∈ Finset.range m, Q k * T (i + k)

/-- The exact value of the dot product between windows j of T1 and i of T2:
QT(j, i) = Σ_k T1[j+k]·T2[i+k] (spec §3, row QT). -/
def QTval (T1 T2 : ℕ → ℝ) (m j i : ℕ) : ℝ := ∑ k ∈ Finset.range m, T1 (j + k) * T2 (i + k)

/-- The scaled Pearson-correlation score of the self-join (spec §4.3.1):
ρ(i, j) = (QT(i, j) − m·μ[i]·μ[j])·σ⁻¹[i]·σ⁻¹[j]. -/
def rho (T : ℕ → ℝ) (m i j : ℕ) : ℝ :=
  (QTval T T m i j - m * win_mu T m i * win_mu T m j) * sigma_inv T m i * sigma_inv T m j

/-- The z-normalized distance between windows i and j derived from the
scaled correlation, d(i,j) = √(2m·(1 − ρ(i,j)/m)) (spec §4.3.1). -/
def dz (T : ℕ → ℝ) (m i j : ℕ) : ℝ :=
  Real.sqrt (2 * m * (1 - rho T m i j / m))

/-- Loop state of the z-normalized self-join: the two dot-product rows and
the profile buffer (stomp.cpp lines 14–15 and the output buffer P). -/
structure SJState where
  QT : ℕ → ℝ
  QT2 : ℕ → ℝ
  P : ℕ → ℝ

/-- One iteration i of the STOMP main loop of `selfjoin` (stomp.cpp lines
40–60): roll the dot product along the diagonal, score, update the row
maxima in P, accumulate the column maximum `max_pi`, store it into P[i],
and swap the QT buffers. -/
def selfjoin_row (T : ℕ → ℝ) (n m i : ℕ) (s : SJState) : SJState :=
  let E := excl_zone m
  let L := n - m + 1
  let r := (List.range' (i + E + 1) (L - (i + E + 1))).foldl
    (fun (t : (ℕ → ℝ) × (ℕ → ℝ) × ℝ) j =>
      let qt2 := s.QT (j - 1) - T (j - 1) * T (i - 1) + T (j + m - 1) * T (i + m - 1)
      let dist := (qt2 - m * win_mu T m i * win_mu T m j) * sigma_inv T m i * sigma_inv T m j
      (Function.update t.1 j qt2,
       Function.update t.2.1 j (max (t.2.1 j) dist),
       max t.2.2 dist))
    (s.QT2, s.P, s.P i)
  { QT := r.1, QT2 := s.QT, P := Function.update r.2.1 i r.2.2 }

/-- Initialization phase of `selfjoin` (stomp.cpp lines 26–38): seed QT with
the naive sliding dot product, fill P with the first correlation row, zero
out the exclusion zone P[0..E], and reduce the first row into P[0]. -/
def selfjoin_init (T : ℕ → ℝ) (n m : ℕ) : SJState :=
  let L := n - m + 1
  let E := excl_zone m
  let QT0 := sliding_dot_product_naive T T n m
  let P1 := (List.range L).foldl
    (fun P j => Function.update P j
      ((QT0 j - m * win_mu T m 0 * win_mu T m j) * sigma_inv T m 0 * sigma_inv T m j))
    (fun _ => 0)
  let P2 := (List.range (E + 1)).foldl (fun P j => Function.update P j 0) P1
  let P3 := (List.range' (E + 1) (L - (E + 1))).foldl
    (fun P j => Function.update P 0 (max (P 0) (P j))) P2
  { QT := QT0, QT2 := fun _ => 0, P := P3 }

/-- The self-join state after the initialization and the first r iterations
of the STOMP main loop (i = 1 .. r). -/
def selfjoin_steps (T : ℕ → ℝ) (n m r : ℕ) : SJState :=
  (List.range' 1 r).foldl (fun s i => selfjoin_row T n m i s) (selfjoin_init T n m)

/-- The full main loop of `selfjoin`: iterations i = 1 .. L−1
(stomp.cpp line 40). -/
def selfjoin_main (T : ℕ → ℝ) (n m : ℕ) : SJState :=
  selfjoin_steps T n m (n - m + 1 - 1)

/-- The body of `::selfjoin` (stomp.cpp lines 6–70): main loop followed by
the finalization `P[i] = sqrt(2m·(1 − P[i]/m))` over all i < L
(lines 62–64). -/
def selfjoin_core (T : ℕ → ℝ) (n m : ℕ) : ℕ → ℝ :=
  (List.range (n - m + 1)).foldl
    (fun P i => Function.update P i (Real.sqrt (2 * m * (1 - P i / m))))
    (selfjoin_main T n m).P

/-- `::selfjoin` with the failure behaviour of its (spec-modelled) callee
`compute_mean_std`: ShapeMismatch for n < m propagates, otherwise the loops
run on the modelled μ and σ arrays. -/
def selfjoin (T : ℕ → ℝ) (n m : ℕ) : Except Err (ℕ → ℝ) :=
  match compute_mean_std T n m with
  | .error e => .error e
  | .ok _ => .ok (selfjoin_core T n m)

/-! The raw-Euclidean self-join `selfjoin_ed` (stomp.cpp lines 138–198).
Same loop skeleton with squared distances, a running minimum, and an
`INFINITY` exclusion sentinel, modelled as `⊤ : WithTop ℝ`. -/

/-- Squared Euclidean distance between windows i and j:
S[i] + S[j] − 2·QT(i, j) (spec §4.3.3). -/
def distsq (T : ℕ → ℝ) (m i j : ℕ) : ℝ :=
  win_S T m i + win_S T m j - 2 * QTval T T m i j

/-- Loop state of the raw-Euclidean self-join; P holds extended reals since
the exclusion sentinel is IEEE `INFINITY` (stomp.cpp line 161). -/
structure SJStateEd where
  QT : ℕ → ℝ
  QT2 : ℕ → ℝ
  P : ℕ → WithTop ℝ

/-- Square root on the profile values of the raw-Euclidean kernels; IEEE
`sqrt(INFINITY) = INFINITY` becomes `⊤ ↦ ⊤`. -/
def sqrtT (x : WithTop ℝ) : WithTop ℝ := x.map Real.sqrt

/-- One iteration i of the STOMP main loop of `selfjoin_ed` (stomp.cpp
lines 170–188): roll the dot product, take squared distances, update the
row minima in P, accumulate the column minimum `min_pi`, store it into
P[i], swap the QT buffers. -/
def selfjoin_ed_row (T : ℕ → ℝ) (n m i : ℕ) (s : SJStateEd) : SJStateEd :=
  let E := excl_zone m
  let L := n - m + 1
  let r := (List.range' (i + E + 1) (L - (i + E + 1))).foldl
    (fun (t : (ℕ → ℝ) × (ℕ → WithTop ℝ) × WithTop ℝ) j =>
      let qt2 := s.QT (j - 1) - T (j - 1) * T (i - 1) + T (j + m - 1) * T (i + m - 1)
      let dist_sq : WithTop ℝ := ((win_S T m i + win_S T m j - 2 * qt2 : ℝ) : WithTop ℝ)
      (Function.update t.1 j qt2,
       Function.update t.2.1 j (min (t.2.1 j) dist_sq),
       min t.2.2 dist_sq))
    (s.QT2, s.P, s.P i)
  { QT := r.1, QT2 := s.QT, P := Function.update r.2.1 i r.2.2 }

/-- Initialization phase of `selfjoin_ed` (stomp.cpp lines 149–167): seed
QT, fill P with the first squared-distance row, set the exclusion zone
P[0..E] to INFINITY, and min-reduce the first row into P[0]. -/
def selfjoin_ed_init (T : ℕ → ℝ) (n m : ℕ) : SJStateEd :=
  let L := n - m + 1
  let E := excl_zone m
  let QT0 := sliding_dot_product_naive T T n m
  let P1 := (List.range L).foldl
    (fun P j => Function.update P j ((win_S T m 0 + win_S T m j - 2 * QT0 j : ℝ) : WithTop ℝ))
    (fun _ => (0 : WithTop ℝ))
  let P2 := (List.range (E + 1)).foldl (fun P j => Function.update P j ⊤) P1
  let P3 := (List.range' (E + 1) (L - (E + 1))).foldl
    (fun P j => Function.update P 0 (min (P 0) (P j))) P2
  { QT := QT0, QT2 := fun _ => 0, P := P3 }

/-- The raw-Euclidean self-join state after the first r main-loop
iterations. -/
def selfjoin_ed_steps (T : ℕ → ℝ) (n m r : ℕ) : SJStateEd :=
  (List.range' 1 r).foldl (fun s i => selfjoin_ed_row T n m i s) (selfjoin_ed_init T n m)

/-- The full main loop of `selfjoin_ed` (stomp.cpp line 170). -/
def selfjoin_ed_main (T : ℕ → ℝ) (n m : ℕ) : SJStateEd :=
  selfjoin_ed_steps T n m (n - m + 1 - 1)

/-- The body of `::selfjoin_ed` (stomp.cpp lines 138–198): main loop, then
`P[i] = sqrt(P[i])` over all i < L (lines 190–193). -/
def selfjoin_ed_core (T : ℕ → ℝ) (n m : ℕ) : ℕ → WithTop ℝ :=
  (List.range (n - m + 1)).foldl
    (fun P i => Function.update P i (sqrtT (P i)))
    (selfjoin_ed_main T n m).P

/-- `::selfjoin_ed` with the failure behaviour of its (spec-modelled)
callee `compute_squared_sum`. -/
def selfjoin_ed (T : ℕ → ℝ) (n m : ℕ) : Except Err (ℕ → WithTop ℝ) :=
  match compute_squared_sum T n m with
  | .error e => .error e
  | .ok _ => .ok (selfjoin_ed_core T n m)

/-! The z-normalized ab-join `abjoin` (stomp.cpp lines 73–135). -/

/-- The ab-join correlation score (stomp.cpp lines 103 and 116):
ρab(j, i) = (QT(j, i) − m·μ1[j]·μ2[i])·σ1⁻¹[j]·σ2⁻¹[i]. -/
def rho_ab (T1 T2 : ℕ → ℝ) (m j i : ℕ) : ℝ :=
  (QTval T1 T2 m j i - m * win_mu T1 m j * win_mu T2 m i) * sigma_inv T1 m j * sigma_inv T2 m i

/-- The z-normalized ab-join distance between window j of T1 and window i
of T2, d(j,i) = √(2m·(1 − ρab(j,i)/m)). -/
def dz_ab (T1 T2 : ℕ → ℝ) (m j i : ℕ) : ℝ :=
  Real.sqrt (2 * m * (1 - rho_ab T1 T2 m j i / m))

/-- Loop state of the ab-joins: two dot-product rows and the profile. -/
structure ABState where
  QT : ℕ → ℝ
  QT2 : ℕ → ℝ
  P : ℕ → ℝ

/-- One outer iteration i of `abjoin` (stomp.cpp lines 106–123): re-seed
QT2[0] by a direct length-m dot product of T1 against the window of T2 at
i, max P[0] with its score, roll the dot product for j = 1 .. L1−1 scoring
and updating P[j], and swap the QT buffers. -/
def abjoin_row (T1 T2 : ℕ → ℝ) (n1 n2 m i : ℕ) (s : ABState) : ABState :=
  let L1 := n1 - m + 1
  let seed := sliding_dot_product_naive T1 (fun k => T2 (i + k)) m m
  let QT2a := Function.update s.QT2 0 (seed 0)
  let P0 := Function.update s.P 0
    (max (s.P 0) ((QT2a 0 - m * win_mu T1 m 0 * win_mu T2 m i) * sigma_inv T1 m 0 * sigma_inv T2 m i))
  let r := (List.range' 1 (L1 - 1)).foldl
    (fun (t : (ℕ → ℝ) × (ℕ → ℝ)) j =>
      let qt2 := s.QT (j - 1) - T1 (j - 1) * T2 (i - 1) + T1 (j + m - 1) * T2 (i + m - 1)
      let dist := (qt2 - m * win_mu T1 m j * win_mu T2 m i) * sigma_inv T1 m j * sigma_inv T2 m i
      (Function.update t.1 j qt2,
       Function.update t.2 j (max (t.2 j) dist)))
    (QT2a, P0)
  { QT := r.1, QT2 := s.QT, P := r.2 }

/-- Initialization of `abjoin` (stomp.cpp lines 99–104): seed QT with the
naive sliding dot product of T1 against the first window of T2 and fill P
with the first correlation column. -/
def abjoin_init (T1 T2 : ℕ → ℝ) (n1 n2 m : ℕ) : ABState :=
  let L1 := n1 - m + 1
  let QT0 := sliding_dot_product_naive T1 T2 n1 m
  let P1 := (List.range L1).foldl
    (fun P j => Function.update P j
      ((QT0 j - m * win_mu T1 m j * win_mu T2 m 0) * sigma_inv T1 m j * sigma_inv T2 m 0))
    (fun _ => 0)
  { QT := QT0, QT2 := fun _ => 0, P := P1 }

/-- The ab-join state after the first r outer iterations (i = 1 .. r). -/
def abjoin_steps (T1 T2 : ℕ → ℝ) (n1 n2 m r : ℕ) : ABState :=
  (List.range' 1 r).foldl (fun s i => abjoin_row T1 T2 n1 n2 m i s) (abjoin_init T1 T2 n1 n2 m)

/-- The full outer loop of `abjoin`: iterations i = 1 .. L2−1
(stomp.cpp line 106). -/
def abjoin_main (T1 T2 : ℕ → ℝ) (n1 n2 m : ℕ) : ABState :=
  abjoin_steps T1 T2 n1 n2 m (n2 - m + 1 - 1)

/-- The body of `::abjoin` (stomp.cpp lines 73–135): outer loop followed by
the finalization `P[i] = sqrt(2m·(1 − P[i]/m))` (lines 125–127). -/
def abjoin_core (T1 T2 : ℕ → ℝ) (n1 n2 m : ℕ) : ℕ → ℝ :=
  (List.range (n1 - m + 1)).foldl
    (fun P i => Function.update P i (Real.sqrt (2 * m * (1 - P i / m))))
    (abjoin_main T1 T2 n1 n2 m).P

/-- `::abjoin` with the failure behaviour of its (spec-modelled) callee
`compute_mean_std`, called for T1 and then T2 (stomp.cpp lines 88–89). -/
def abjoin (T1 T2 : ℕ → ℝ) (n1 n2 m : ℕ) : Except Err (ℕ → ℝ) :=
  match compute_mean_std T1 n1 m with
  | .error e => .error e
  | .ok _ =>
    match compute_mean_std T2 n2 m with
    | .error e => .error e
    | .ok _ => .ok (abjoin_core T1 T2 n1 n2 m)

/-! The raw-Euclidean ab-join `abjoin_ed` (stomp.cpp lines 202–254). -/

/-- Squared ab-join distance S1[j] + S2[i] − 2·QT(j, i)
(stomp.cpp lines 228 and 236). -/
def distsq_ab (T1 T2 : ℕ → ℝ) (m j i : ℕ) : ℝ :=
  win_S T1 m j + win_S T2 m i - 2 * QTval T1 T2 m j i

/-- One outer iteration i of `abjoin_ed` (stomp.cpp lines 225–243). -/
def abjoin_ed_row (T1 T2 : ℕ → ℝ) (n1 n2 m i : ℕ) (s : ABState) : ABState :=
  let L1 := n1 - m + 1
  let seed := sliding_dot_product_naive T1 (fun k => T2 (i + k)) m m
  let QT2a := Function.update s.QT2 0 (seed 0)
  let P0 := Function.update s.P 0
    (min (s.P 0) (win_S T1 m 0 + win_S T2 m i - 2 * QT2a 0))
  let r := (List.range' 1 (L1 - 1)).foldl
    (fun (t : (ℕ → ℝ) × (ℕ → ℝ)) j =>
      let qt2 := s.QT (j - 1) - T1 (j - 1) * T2 (i - 1) + T1 (j + m - 1) * T2 (i + m - 1)
      let dist_sq := win_S T1 m j + win_S T2 m i - 2 * qt2
      (Function.update t.1 j qt2,
       Function.update t.2 j (min (t.2 j) dist_sq)))
    (QT2a, P0)
  { QT := r.1, QT2 := s.QT, P := r.2 }

/-- Initialization of `abjoin_ed` (stomp.cpp lines 218–223). -/
def abjoin_ed_init (T1 T2 : ℕ → ℝ) (n1 n2 m : ℕ) : ABState :=
  let L1 := n1 - m + 1
  let QT0 := sliding_dot_product_naive T1 T2 n1 m
  let P1 := (List.range L1).foldl
    (fun P j => Function.update P j (win_S T1 m j + win_S T2 m 0 - 2 * QT0 j))
    (fun _ => 0)
  { QT := QT0, QT2 := fun _ => 0, P := P1 }

/-- The body of `::abjoin_ed` (stomp.cpp lines 202–254): no exclusion
sentinel ever arises (every entry of P always holds a genuine squared
distance), so P stays real-valued; finalization takes square roots. -/
def abjoin_ed_core (T1 T2 : ℕ → ℝ) (n1 n2 m : ℕ) : ℕ → ℝ :=
  (List.range (n1 - m + 1)).foldl
    (fun P i => Function.update P i (Real.sqrt (P i)))
    (((List.range' 1 (n2 - m + 1 - 1)).foldl
        (fun s i => abjoin_ed_row T1 T2 n1 n2 m i s)
        (abjoin_ed_init T1 T2 n1 n2 m)).P)

/-- `::abjoin_ed` with the failure behaviour of its (spec-modelled) callee
`compute_squared_sum`, called for T1 and then T2 (lines 214–215). -/
def abjoin_ed (T1 T2 : ℕ → ℝ) (n1 n2 m : ℕ) : Except Err (ℕ → ℝ) :=
  match compute_squared_sum T1 n1 m with
  | .error e => .error e
  | .ok _ =>
    match compute_squared_sum T2 n2 m with
    | .error e => .error e
    | .ok _ => .ok (abjoin_ed_core T1 T2 n1 n2 m)

/-! The CPU backend façade (src/cpu/backend.cpp).  The only global state is
`bool g_initialized`; it is threaded explicitly.  Every kernel entry point
takes the current flag, a stream argument it casts away (`(void)stream`),
and returns `Except Err` since the C++ can throw. -/

/-- Profile values as the façade hands them back: the raw-Euclidean kernels
can store IEEE INFINITY (⊤), the z-normalized ones always store finite
reals, injected by coercion. -/
def coeP (P : ℕ → ℝ) : ℕ → WithTop ℝ := fun i => ((P i : ℝ) : WithTop ℝ)

/-- `quickmp::initialize` (backend.cpp lines 16–23): device arguments are
ignored on CPU; throws if already initialized, else sets the flag. -/
def backend_init (g : Bool) (device_start device_count : ℤ) : Except Err Bool :=
  if g then .error .AlreadyInitialized else .ok true

/-- `quickmp::finalize` (backend.cpp lines 25–30): throws if not
initialized, else clears the flag. -/
def backend_fin (g : Bool) : Except Err Bool :=
  if g then .ok false else .error .NotInitialized

/-- `quickmp::selfjoin` (backend.cpp lines 66–73): casts the stream away
and dispatches on `normalize`; the initialization flag is never read. -/
def backend_selfjoin (g : Bool) (T : ℕ → ℝ) (n m : ℕ) (stream : ℤ) (normalize : Bool) :
    Except Err (ℕ → WithTop ℝ) :=
  if normalize then (selfjoin T n m).map coeP
  else selfjoin_ed T n m

/-- `quickmp::abjoin` (backend.cpp lines 75–83). -/
def backend_abjoin (g : Bool) (T1 T2 : ℕ → ℝ) (n1 n2 m : ℕ) (stream : ℤ)
    (normalize : Bool) : Except Err (ℕ → WithTop ℝ) :=
  if normalize then (abjoin T1 T2 n1 n2 m).map coeP
  else (abjoin_ed T1 T2 n1 n2 m).map coeP

/-- `quickmp::sliding_dot_product` (backend.cpp lines 54–58): always the
FFT implementation; no failure path. -/
def backend_sdp (g : Bool) (T Q : ℕ → ℝ) (n m : ℕ) (stream : ℤ) : Except Err (ℕ → ℝ) :=
  .ok (sliding_dot_product_fft T Q n m)

/-- `quickmp::compute_mean_std` (backend.cpp lines 60–64). -/
def backend_mean_std (g : Bool) (T : ℕ → ℝ) (n m : ℕ) (stream : ℤ) :
    Except Err ((ℕ → ℝ) × (ℕ → ℝ)) :=
  compute_mean_std T n m

/-- `quickmp::sleep_us` (backend.cpp lines 85–88): `usleep` has no
observable result in the data model. -/
def backend_sleep_us (g : Bool) (microseconds : ℕ) (stream : ℤ) : Except Err Unit :=
  .ok ()

/-! Generic lemmas about the loop shapes that appear in the kernels. -/

/-- Replacing the folded function by a pointwise-equal one on the list. -/
lemma foldl_congr_mem {α β : Type} :
    ∀ (l : List α) (f g : β → α → β) (b : β),
      (∀ x ∈ l, ∀ acc, f acc x = g acc x) → l.foldl f b = l.foldl g b := by
  intro l
  induction l with
  | nil => intro f g b _; rfl
  | cons a t ih =>
    intro f g b h
    rw [List.foldl_cons, List.foldl_cons, h a (List.mem_cons_self a t) b]
    exact ih f g _ fun x hx acc => h x (List.mem_cons_of_mem a hx) acc

/-- A loop over pairwise-distinct indices that rewrites each visited cell
from its own previous value acts pointwise. -/
lemma foldl_update_char {β : Type} (g : ℕ → β → β) :
    ∀ (l : List ℕ), l.Nodup → ∀ (p : ℕ → β) (k : ℕ),
      (l.foldl (fun p j => Function.update p j (g j (p j))) p) k
        = if k ∈ l then g k (p k) else p k := by
  intro l
  induction l with
  | nil => intro _ p k; simp
  | cons a t ih =>
    intro hnd p k
    rw [List.foldl_cons, ih (List.nodup_cons.mp hnd).2]
    by_cases hkt : k ∈ t
    · have hka : k ≠ a := fun h => (List.nodup_cons.mp hnd).1 (h ▸ hkt)
      simp [hkt, hka, Function.update_noteq hka]
    · by_cases hka : k = a
      · subst hka; simp [hkt]
      · simp [hkt, hka, Function.update_noteq hka]

/-- A reduction loop that folds other cells into cell 0 leaves every other
cell alone and accumulates into cell 0. -/
lemma foldl_acc_char {β : Type} (op : β → β → β) :
    ∀ (l : List ℕ), 0 ∉ l → ∀ (p : ℕ → β),
      (l.foldl (fun p j => Function.update p 0 (op (p 0) (p j))) p)
        = Function.update p 0 (l.foldl (fun acc j => op acc (p j)) (p 0)) := by
  intro l
  induction l with
  | nil => intro _ p; simp
  | cons a t ih =>
    intro h0 p
    have ha : a ≠ 0 := fun h => h0 (h ▸ List.mem_cons_self a t)
    rw [List.foldl_cons, ih (fun h => h0 (List.mem_cons_of_mem a h))]
    have hp0 : Function.update p 0 (op (p 0) (p a)) 0 = op (p 0) (p a) := by simp
    rw [hp0]
    have harg : ∀ b, (t.foldl (fun acc j => op acc (Function.update p 0 (op (p 0) (p a)) j)) b)
        = t.foldl (fun acc j => op acc (p j)) b := by
      intro b
      refine foldl_congr_mem t _ _ b ?_
      intro x hx y
      have hxj : x ≠ 0 := fun h => h0 (h ▸ List.mem_cons_of_mem a hx)
      rw [Function.update_noteq hxj]
    rw [harg, Function.update_idem, List.foldl_cons]

/-- The inner diagonal loop of the self-joins: per-index writes of the new
dot-product row, per-index combines into the profile, and a running
accumulator over the scored values. -/
lemma foldl_row_char {β : Type} (op : β → β → β) (qv : ℕ → ℝ) (dv : ℕ → β) :
    ∀ (l : List ℕ), l.Nodup → ∀ (q : ℕ → ℝ) (p : ℕ → β) (a : β),
      (∀ k, (l.foldl (fun (t : (ℕ → ℝ) × (ℕ → β) × β) j =>
          (Function.update t.1 j (qv j),
           Function.update t.2.1 j (op (t.2.1 j) (dv j)),
           op t.2.2 (dv j))) (q, p, a)).1 k = if k ∈ l then qv k else q k) ∧
      (∀ k, (l.foldl (fun (t : (ℕ → ℝ) × (ℕ → β) × β) j =>
          (Function.update t.1 j (qv j),
           Function.update t.2.1 j (op (t.2.1 j) (dv j)),
           op t.2.2 (dv j))) (q, p, a)).2.1 k = if k ∈ l then op (p k) (dv k) else p k) ∧
      (l.foldl (fun (t : (ℕ → ℝ) × (ℕ → β) × β) j =>
          (Function.update t.1 j (qv j),
           Function.update t.2.1 j (op (t.2.1 j) (dv j)),
           op t.2.2 (dv j))) (q, p, a)).2.2
        = l.foldl (fun acc j => op acc (dv j)) a := by
  intro l
  induction l with
  | nil => intro _ q p a; exact ⟨fun k => by simp, fun k => by simp, by simp⟩
  | cons c t ih =>
    intro hnd q p a
    have hct := (List.nodup_cons.mp hnd).1
    obtain ⟨ih1, ih2, ih3⟩ := ih (List.nodup_cons.mp hnd).2
      (Function.update q c (qv c)) (Function.update p c (op (p c) (dv c))) (op a (dv c))
    refine ⟨fun k => ?_, fun k => ?_, by simpa using ih3⟩
    · rw [List.foldl_cons]
      rw [ih1 k]
      by_cases hkt : k ∈ t
      · simp [hkt]
      · by_cases hkc : k = c
        · subst hkc; simp [hkt]
        · simp [hkt, hkc, Function.update_noteq hkc]
    · rw [List.foldl_cons]
      rw [ih2 k]
      by_cases hkt : k ∈ t
      · have hkc : k ≠ c := fun h => hct (h ▸ hkt)
        simp [hkt, hkc, Function.update_noteq hkc]
      · by_cases hkc : k = c
        · subst hkc; simp [hkt]
        · simp [hkt, hkc, Function.update_noteq hkc]

/-- The inner loop of the ab-joins: per-index writes of the new dot-product
row and per-index combines into the profile (no accumulator). -/
lemma foldl_row2_char {β : Type} (op : β → β → β) (qv : ℕ → ℝ) (dv : ℕ → β) :
    ∀ (l : List ℕ), l.Nodup → ∀ (q : ℕ → ℝ) (p : ℕ → β),
      (∀ k, (l.foldl (fun (t : (ℕ → ℝ) × (ℕ → β)) j =>
          (Function.update t.1 j (qv j),
           Function.update t.2 j (op (t.2 j) (dv j)))) (q, p)).1 k
          = if k ∈ l then qv k else q k) ∧
      (∀ k, (l.foldl (fun (t : (ℕ → ℝ) × (ℕ → β)) j =>
          (Function.update t.1 j (qv j),
           Function.update t.2 j (op (t.2 j) (dv j)))) (q, p)).2 k
          = if k ∈ l then op (p k) (dv k) else p k) := by
  intro l
  induction l with
  | nil => intro _ q p; exact ⟨fun k => by simp, fun k => by simp⟩
  | cons c t ih =>
    intro hnd q p
    have hct := (List.nodup_cons.mp hnd).1
    obtain ⟨ih1, ih2⟩ := ih (List.nodup_cons.mp hnd).2
      (Function.update q c (qv c)) (Function.update p c (op (p c) (dv c)))
    refine ⟨fun k => ?_, fun k => ?_⟩
    · rw [List.foldl_cons, ih1 k]
      by_cases hkt : k ∈ t
      · simp [hkt]
      · by_cases hkc : k = c
        · subst hkc; simp [hkt]
        · simp [hkt, hkc, Function.update_noteq hkc]
    · rw [List.foldl_cons, ih2 k]
      by_cases hkt : k ∈ t
      · have hkc : k ≠ c := fun h => hct (h ▸ hkt)
        simp [hkt, hkc, Function.update_noteq hkc]
      · by_cases hkc : k = c
        · subst hkc; simp [hkt]
        · simp [hkt, hkc, Function.update_noteq hkc]

/-- What a max-fold computes: an upper bound of the seed and of every
element, attained at the seed or at an element. -/
lemma foldl_max_spec {α : Type} [LinearOrder α] (l : List α) (b : α) :
    b ≤ l.foldl max b ∧ (∀ x ∈ l, x ≤ l.foldl max b)
      ∧ (l.foldl max b = b ∨ l.foldl max b ∈ l) := by
  induction l generalizing b with
  | nil => exact ⟨le_refl b, by simp, Or.inl rfl⟩
  | cons a t ih =>
    obtain ⟨h1, h2, h3⟩ := ih (max b a)
    simp only [List.foldl_cons]
    refine ⟨le_trans (le_max_left b a) h1, ?_, ?_⟩
    · intro x hx
      rcases List.mem_cons.mp hx with h | h
      · rw [h]; exact le_trans (le_max_right b a) h1
      · exact h2 x h
    · rcases h3 with h | h
      · rcases max_choice b a with hc | hc
        · exact Or.inl (by rw [h, hc])
        · exact Or.inr (by rw [h, hc]; exact List.mem_cons_self a t)
      · exact Or.inr (List.mem_cons_of_mem a h)

/-- What a min-fold computes: a lower bound of the seed and of every
element, attained at the seed or at an element. -/
lemma foldl_min_spec {α : Type} [LinearOrder α] (l : List α) (b : α) :
    l.foldl min b ≤ b ∧ (∀ x ∈ l, l.foldl min b ≤ x)
      ∧ (l.foldl min b = b ∨ l.foldl min b ∈ l) := by
  induction l generalizing b with
  | nil => exact ⟨le_refl b, by simp, Or.inl rfl⟩
  | cons a t ih =>
    obtain ⟨h1, h2, h3⟩ := ih (min b a)
    simp only [List.foldl_cons]
    refine ⟨le_trans h1 (min_le_left b a), ?_, ?_⟩
    · intro x hx
      rcases List.mem_cons.mp hx with h | h
      · rw [h]; exact le_trans h1 (min_le_right b a)
      · exact h2 x h
    · rcases h3 with h | h
      · rcases min_choice b a with hc | hc
        · exact Or.inl (by rw [h, hc])
        · exact Or.inr (by rw [h, hc]; exact List.mem_cons_self a t)
      · exact Or.inr (List.mem_cons_of_mem a h)

/-! Algebraic identities of the dot products and window statistics. -/

/-- Correctness of the naive sliding dot product loops: QT[i] is the
window dot product, for every i < n − m + 1. -/
lemma sdp_naive_eq (T Q : ℕ → ℝ) (n m i : ℕ) (hi : i < n - m + 1) :
    sliding_dot_product_naive T Q n m i = ∑ k ∈ Finset.range m, Q k * T (i + k) := by
  suffices h : ∀ (L : ℕ), i < L → ∀ mm, ((List.range mm).foldl
      (fun QT j => (List.range L).foldl
        (fun QT i => Function.update QT i (QT i + Q j * T (i + j))) QT)
      (fun _ => 0)) i = ∑ k ∈ Finset.range mm, Q k * T (i + k) by
    exact h (n - m + 1) hi m
  intro L hiL mm
  induction mm with
  | zero => simp
  | succ mmm ih =>
    rw [List.range_succ, List.foldl_append, List.foldl_cons, List.foldl_nil,
      foldl_update_char (fun j v => v + Q mmm * T (j + mmm)) _ (List.nodup_range _),
      ih, Finset.sum_range_succ]
    simp [List.mem_range, hiL]

/-- The diagonal rolling identity: the dot product of the next pair of
windows differs from the previous diagonal cell by one corner product at
each end. -/
lemma QTval_roll (T1 T2 : ℕ → ℝ) (m a b : ℕ) :
    QTval T1 T2 m (b + 1) (a + 1)
      = QTval T1 T2 m b a - T1 b * T2 a + T1 (b + m) * T2 (a + m) := by
  unfold QTval
  have h : ∑ k ∈ Finset.range m, T1 (b + 1 + k) * T2 (a + 1 + k)
      = ∑ k ∈ Finset.range m, (fun k => T1 (b + k) * T2 (a + k)) (k + 1) := by
    refine Finset.sum_congr rfl fun k _ => ?_
    have hb : b + 1 + k = b + (k + 1) := by omega
    have ha : a + 1 + k = a + (k + 1) := by omega
    rw [hb, ha]
  rw [h]
  have h2 := Finset.sum_range_succ (fun k => T1 (b + k) * T2 (a + k)) m
  have h3 := Finset.sum_range_succ' (fun k => T1 (b + k) * T2 (a + k)) m
  simp only [Nat.add_zero] at h2 h3
  linarith [h2, h3]

/-- The self-join dot product is symmetric in its window indices. -/
lemma QTval_comm (T : ℕ → ℝ) (m i j : ℕ) :
    QTval T T m i j = QTval T T m j i := by
  unfold QTval
  exact Finset.sum_congr rfl fun k _ => mul_comm _ _

/-- The self-join correlation score is symmetric. -/
lemma rho_comm (T : ℕ → ℝ) (m i j : ℕ) : rho T m i j = rho T m j i := by
  unfold rho
  rw [QTval_comm]
  ring

/-- The numerator of the correlation is the centered cross moment. -/
lemma centered_dot (T : ℕ → ℝ) (m i j : ℕ) (hm : m ≠ 0) :
    QTval T T m i j - m * win_mu T m i * win_mu T m j
      = ∑ k ∈ Finset.range m, (T (i + k) - win_mu T m i) * (T (j + k) - win_mu T m j) := by
  have hmR : (m : ℝ) ≠ 0 := Nat.cast_ne_zero.mpr hm
  have hsum_i : ∑ k ∈ Finset.range m, T (i + k) = m * win_mu T m i := by
    unfold win_mu; field_simp
  have hsum_j : ∑ k ∈ Finset.range m, T (j + k) = m * win_mu T m j := by
    unfold win_mu; field_simp
  have expand : ∀ k ∈ Finset.range m,
      (T (i + k) - win_mu T m i) * (T (j + k) - win_mu T m j)
        = T (i + k) * T (j + k) - win_mu T m j * T (i + k) - win_mu T m i * T (j + k)
          + win_mu T m i * win_mu T m j := fun k _ => by ring
  rw [Finset.sum_congr rfl expand]
  rw [Finset.sum_add_distrib, Finset.sum_sub_distrib, Finset.sum_sub_distrib,
    ← Finset.mul_sum, ← Finset.mul_sum, Finset.sum_const, Finset.card_range,
    nsmul_eq_mul, hsum_i, hsum_j]
  unfold QTval
  ring

/-- The raw variance of a window is the mean of squared deviations. -/
lemma win_var_eq (T : ℕ → ℝ) (m i : ℕ) (hm : m ≠ 0) :
    (∑ k ∈ Finset.range m, T (i + k) ^ 2) / m - win_mu T m i ^ 2
      = (∑ k ∈ Finset.range m, (T (i + k) - win_mu T m i) ^ 2) / m := by
  have hmR : (m : ℝ) ≠ 0 := Nat.cast_ne_zero.mpr hm
  have hsum_i : ∑ k ∈ Finset.range m, T (i + k) = m * win_mu T m i := by
    unfold win_mu; field_simp
  have expand : ∀ k ∈ Finset.range m,
      (T (i + k) - win_mu T m i) ^ 2
        = T (i + k) ^ 2 - 2 * win_mu T m i * T (i + k) + win_mu T m i ^ 2 :=
    fun k _ => by ring
  rw [Finset.sum_congr rfl expand, Finset.sum_add_distrib, Finset.sum_sub_distrib,
    ← Finset.mul_sum, Finset.sum_const, Finset.card_range, nsmul_eq_mul, hsum_i]
  field_simp
  ring

/-- The raw variance of a window is nonnegative, so the clamp in
`win_sigma` never fires. -/
lemma win_var_nonneg (T : ℕ → ℝ) (m i : ℕ) (hm : m ≠ 0) :
    0 ≤ (∑ k ∈ Finset.range m, T (i + k) ^ 2) / m - win_mu T m i ^ 2 := by
  rw [win_var_eq T m i hm]
  have hnum : 0 ≤ ∑ k ∈ Finset.range m, (T (i + k) - win_mu T m i) ^ 2 :=
    Finset.sum_nonneg fun k _ => sq_nonneg _
  positivity

/-- The standard deviation is nonnegative. -/
lemma win_sigma_nonneg (T : ℕ → ℝ) (m i : ℕ) : 0 ≤ win_sigma T m i :=
  Real.sqrt_nonneg _

/-- Squaring the standard deviation recovers the mean squared deviation. -/
lemma win_sigma_sq (T : ℕ → ℝ) (m i : ℕ) (hm : m ≠ 0) :
    win_sigma T m i ^ 2 = (∑ k ∈ Finset.range m, (T (i + k) - win_mu T m i) ^ 2) / m := by
  unfold win_sigma
  rw [max_eq_right (win_var_nonneg T m i hm), Real.sq_sqrt (win_var_nonneg T m i hm),
    win_var_eq T m i hm]

/-- Cauchy–Schwarz bound on the scaled correlation: ρ(i, j) ≤ m.  In exact
arithmetic the argument of the finalization square root is therefore never
negative. -/
lemma rho_le (T : ℕ → ℝ) (m i j : ℕ) (hm : m ≠ 0) : rho T m i j ≤ m := by
  have hmR : (0 : ℝ) ≤ m := Nat.cast_nonneg m
  by_cases hsi : win_sigma T m i = 0
  · unfold rho sigma_inv
    rw [hsi]
    simp [hmR]
  by_cases hsj : win_sigma T m j = 0
  · unfold rho sigma_inv
    rw [hsj]
    simp [hmR]
  have hsi' : 0 < win_sigma T m i := lt_of_le_of_ne (win_sigma_nonneg T m i) (Ne.symm hsi)
  have hsj' : 0 < win_sigma T m j := lt_of_le_of_ne (win_sigma_nonneg T m j) (Ne.symm hsj)
  have hmpos : (0 : ℝ) < m := by
    rcases Nat.pos_of_ne_zero hm with h
    exact_mod_cast h
  set c := QTval T T m i j - m * win_mu T m i * win_mu T m j with hc
  have hcs : c ^ 2 ≤ (∑ k ∈ Finset.range m, (T (i + k) - win_mu T m i) ^ 2)
      * (∑ k ∈ Finset.range m, (T (j + k) - win_mu T m j) ^ 2) := by
    rw [hc, centered_dot T m i j hm]
    exact Finset.sum_mul_sq_le_sq_mul_sq (Finset.range m) _ _
  have hDi : (∑ k ∈ Finset.range m, (T (i + k) - win_mu T m i) ^ 2)
      = m * win_sigma T m i ^ 2 := by
    rw [win_sigma_sq T m i hm]
    field_simp
  have hDj : (∑ k ∈ Finset.range m, (T (j + k) - win_mu T m j) ^ 2)
      = m * win_sigma T m j ^ 2 := by
    rw [win_sigma_sq T m j hm]
    field_simp
  have hbound : c ≤ m * (win_sigma T m i * win_sigma T m j) := by
    have hsq : c ^ 2 ≤ (m * (win_sigma T m i * win_sigma T m j)) ^ 2 := by
      calc c ^ 2 ≤ _ := hcs
        _ = (m * (win_sigma T m i * win_sigma T m j)) ^ 2 := by rw [hDi, hDj]; ring
    have hrhs : 0 ≤ m * (win_sigma T m i * win_sigma T m j) := by positivity
    nlinarith [hsq, hrhs, abs_nonneg c, le_abs_self c, sq_abs c]
  unfold rho sigma_inv
  rw [← hc]
  have hprod : 0 < win_sigma T m i * win_sigma T m j := mul_pos hsi' hsj'
  have : c * (1 / win_sigma T m i) * (1 / win_sigma T m j)
      = c / (win_sigma T m i * win_sigma T m j) := by
    field_simp
  rw [this]
  rw [div_le_iff₀ hprod]
  calc c ≤ m * (win_sigma T m i * win_sigma T m j) := hbound
    _ = m * (win_sigma T m i * win_sigma T m j) := rfl

/-! Characterization of the z-normalized self-join loops. -/

/-- A loop over pairwise-distinct indices that writes a state-independent
value into each visited cell acts pointwise. -/
lemma foldl_update_const {β : Type} (v : ℕ → β) (l : List ℕ) (hl : l.Nodup)
    (p : ℕ → β) (k : ℕ) :
    (l.foldl (fun p j => Function.update p j (v j)) p) k
      = if k ∈ l then v k else p k :=
  foldl_update_char (fun j _ => v j) l hl p k

/-- The value of P[k] after the initialization and main-loop iterations
i = 1 .. r: the exclusion sentinel 0 (k ≤ E) or the seeded first-row score
ρ(0, k), maxed with the column scores ρ(a, k) of the processed rows a and,
once row k itself has run (or at once for k = 0), with its row batch
ρ(k, j) for j beyond the exclusion zone. -/
def partialCorr (T : ℕ → ℝ) (n m r k : ℕ) : ℝ :=
  ((List.range' 1 (min r (k - excl_zone m - 1))).map (fun a => rho T m a k)
    ++ (if k = 0 ∨ k ≤ r then
          (List.range' (k + excl_zone m + 1)
            (n - m + 1 - (k + excl_zone m + 1))).map (rho T m k)
        else [])).foldl
    max (if k ≤ excl_zone m then 0 else rho T m 0 k)

/-- The value the self-join main loop leaves in P[k] before the distance
conversion: the maximum correlation over admissible partners on both sides
of k, with the exclusion sentinel 0 as the seed when k ≤ E. -/
def bestCorr (T : ℕ → ℝ) (n m k : ℕ) : ℝ :=
  ((List.range' 1 (k - excl_zone m - 1)).map (fun a => rho T m a k)
    ++ (List.range' (k + excl_zone m + 1)
        (n - m + 1 - (k + excl_zone m + 1))).map (rho T m k)).foldl
    max (if k ≤ excl_zone m then 0 else rho T m 0 k)

/-- After initialization the first dot-product row holds the window dot
products against window 0. -/
lemma selfjoin_init_QT (T : ℕ → ℝ) (n m : ℕ) (j : ℕ) (hj : j < n - m + 1) :
    (selfjoin_init T n m).QT j = QTval T T m 0 j := by
  show sliding_dot_product_naive T T n m j = QTval T T m 0 j
  rw [sdp_naive_eq T T n m j hj]
  unfold QTval
  exact Finset.sum_congr rfl fun k _ => by rw [Nat.zero_add]

/-- The initialization phase realizes `partialCorr` at r = 0. -/
lemma selfjoin_init_P (T : ℕ → ℝ) (n m : ℕ) (k : ℕ) (hk : k < n - m + 1) :
    (selfjoin_init T n m).P k = partialCorr T n m 0 k := by
  have hL : 0 < n - m + 1 := Nat.lt_of_le_of_lt (Nat.zero_le k) hk
  set L := n - m + 1 with hLdef
  set E := excl_zone m with hEdef
  set QT0 := sliding_dot_product_naive T T n m with hQT0
  set v : ℕ → ℝ := fun j =>
    (QT0 j - m * win_mu T m 0 * win_mu T m j) * sigma_inv T m 0 * sigma_inv T m j with hv
  have hvrho : ∀ j, j < L → v j = rho T m 0 j := by
    intro j hj
    rw [hv]
    show (QT0 j - _) * _ * _ = _
    rw [hQT0, sdp_naive_eq T T n m j hj]
    unfold rho QTval
    have : ∑ k ∈ Finset.range m, T k * T (j + k)
        = ∑ k ∈ Finset.range m, T (0 + k) * T (j + k) :=
      Finset.sum_congr rfl fun k _ => by rw [Nat.zero_add]
    rw [this]
  have hP1 : ∀ kk, ((List.range L).foldl (fun P j => Function.update P j (v j))
      (fun _ => (0 : ℝ))) kk = if kk ∈ List.range L then v kk else 0 :=
    fun kk => foldl_update_const v _ (List.nodup_range _) _ kk
  set P1 := (List.range L).foldl (fun P j => Function.update P j (v j))
      (fun _ => (0 : ℝ)) with hP1def
  have hP2 : ∀ kk, ((List.range (E + 1)).foldl
      (fun P j => Function.update P j (0 : ℝ)) P1) kk
      = if kk ∈ List.range (E + 1) then 0 else P1 kk :=
    fun kk => foldl_update_const (fun _ => (0 : ℝ)) _ (List.nodup_range _) _ kk
  set P2 := (List.range (E + 1)).foldl (fun P j => Function.update P j (0 : ℝ)) P1 with hP2def
  have h0notin : 0 ∉ List.range' (E + 1) (L - (E + 1)) := by
    intro h
    rw [List.mem_range'_1] at h
    omega
  have hP3 := foldl_acc_char (max : ℝ → ℝ → ℝ) (List.range' (E + 1) (L - (E + 1))) h0notin P2
  have hgoal : (selfjoin_init T n m).P k
      = Function.update P2 0 ((List.range' (E + 1) (L - (E + 1))).foldl
          (fun acc j => max acc (P2 j)) (P2 0)) k := by
    show ((List.range' (E + 1) (L - (E + 1))).foldl
        (fun P j => Function.update P 0 (max (P 0) (P j))) P2) k = _
    rw [hP3]
  rw [hgoal]
  by_cases hk0 : k = 0
  · subst hk0
    rw [Function.update_same]
    have hP20 : P2 0 = 0 := by
      rw [hP2]
      simp [List.mem_range]
    have hcongr : (List.range' (E + 1) (L - (E + 1))).foldl
        (fun acc j => max acc (P2 j)) (P2 0)
        = (List.range' (E + 1) (L - (E + 1))).foldl
            (fun acc j => max acc (rho T m 0 j)) (P2 0) := by
      refine foldl_congr_mem _ _ _ _ ?_
      intro x hx acc
      rw [List.mem_range'_1] at hx
      have hxL : x < L := by omega
      have hxE : ¬ x < E + 1 := by omega
      have : P2 x = v x := by
        rw [hP2, hP1]
        simp [List.mem_range, hxL, hxE]
      rw [this, hvrho x hxL]
    rw [hcongr, hP20]
    unfold partialCorr
    rw [← hLdef, ← hEdef]
    have hmin : min 0 (0 - E - 1) = 0 := by omega
    rw [hmin]
    simp only [List.range'_zero, List.map_nil, List.nil_append, true_or, if_true,
      Nat.zero_le, List.foldl_map, Nat.zero_add]
  · rw [Function.update_noteq hk0]
    by_cases hkE : k ≤ E
    · have : P2 k = 0 := by
        rw [hP2]
        simp [List.mem_range]
        omega
      rw [this]
      unfold partialCorr
      rw [← hEdef]
      have hmin : min 0 (k - E - 1) = 0 := by omega
      rw [hmin]
      have hif : ¬ (k = 0 ∨ k ≤ 0) := by omega
      simp only [List.range'_zero, List.map_nil, List.nil_append, if_neg hif]
      rw [if_pos hkE]
      rfl
    · have : P2 k = v k := by
        rw [hP2, hP1]
        have h1 : k ∉ List.range (E + 1) := by simp [List.mem_range]; omega
        have h2 : k ∈ List.range L := by simp [List.mem_range]; omega
        simp [h1, h2]
      rw [this, hvrho k hk]
      unfold partialCorr
      rw [← hLdef, ← hEdef]
      have hmin : min 0 (k - E - 1) = 0 := by omega
      rw [hmin]
      have hif : ¬ (k = 0 ∨ k ≤ 0) := by omega
      simp only [List.range'_zero, List.map_nil, List.nil_append, if_neg hif]
      rw [if_neg hkE]
      rfl

/-- The rolled dot-product value written at column j during main-loop
iteration i of the self-join. -/
def sj_qv (T : ℕ → ℝ) (m i : ℕ) (s : SJState) (j : ℕ) : ℝ :=
  s.QT (j - 1) - T (j - 1) * T (i - 1) + T (j + m - 1) * T (i + m - 1)

/-- The correlation score computed at column j during main-loop iteration i
of the self-join. -/
def sj_dv (T : ℕ → ℝ) (m i : ℕ) (s : SJState) (j : ℕ) : ℝ :=
  (sj_qv T m i s j - m * win_mu T m i * win_mu T m j) * sigma_inv T m i * sigma_inv T m j

/-- Pointwise description of the dot-product row written by one main-loop
iteration of the self-join. -/
lemma selfjoin_row_QT (T : ℕ → ℝ) (n m i : ℕ) (s : SJState) (k : ℕ) :
    (selfjoin_row T n m i s).QT k
      = if k ∈ List.range' (i + excl_zone m + 1) (n - m + 1 - (i + excl_zone m + 1))
        then sj_qv T m i s k else s.QT2 k :=
  (foldl_row_char max (sj_qv T m i s) (sj_dv T m i s)
    _ (List.nodup_range' _ _) s.QT2 s.P (s.P i)).1 k

/-- Pointwise description of the profile written by one main-loop iteration
of the self-join. -/
lemma selfjoin_row_P (T : ℕ → ℝ) (n m i : ℕ) (s : SJState) (k : ℕ) :
    (selfjoin_row T n m i s).P k
      = if k = i
        then (List.range' (i + excl_zone m + 1) (n - m + 1 - (i + excl_zone m + 1))).foldl
              (fun acc j => max acc (sj_dv T m i s j)) (s.P i)
        else if k ∈ List.range' (i + excl_zone m + 1) (n - m + 1 - (i + excl_zone m + 1))
          then max (s.P k) (sj_dv T m i s k) else s.P k := by
  obtain ⟨hq, hp, hacc⟩ := foldl_row_char max (sj_qv T m i s) (sj_dv T m i s)
    (List.range' (i + excl_zone m + 1) (n - m + 1 - (i + excl_zone m + 1)))
    (List.nodup_range' _ _) s.QT2 s.P (s.P i)
  by_cases hk : k = i
  · subst hk
    show Function.update _ k _ k = _
    rw [Function.update_same, if_pos rfl]
    exact hacc
  · show Function.update _ i _ k = _
    rw [Function.update_noteq hk, if_neg hk]
    exact hp k

/-- Unrolling the last main-loop iteration of the self-join. -/
lemma selfjoin_steps_succ (T : ℕ → ℝ) (n m r : ℕ) :
    selfjoin_steps T n m (r + 1)
      = selfjoin_row T n m (1 + r) (selfjoin_steps T n m r) := by
  unfold selfjoin_steps
  rw [List.range'_1_concat, List.foldl_append, List.foldl_cons, List.foldl_nil]

/-- Main-loop invariant of the z-normalized self-join: after iterations
1 .. r, the active dot-product row holds the diagonal dot products of row
r, and every profile cell holds its partial running maximum. -/
theorem selfjoin_inv (T : ℕ → ℝ) (n m : ℕ) :
    ∀ r, r ≤ n - m + 1 - 1 →
      (∀ j, j < n - m + 1 → (r = 0 ∨ r + excl_zone m + 1 ≤ j) →
        (selfjoin_steps T n m r).QT j = QTval T T m r j)
      ∧ (∀ k, k < n - m + 1 → (selfjoin_steps T n m r).P k = partialCorr T n m r k) := by
  intro r
  induction r with
  | zero =>
    intro _
    constructor
    · intro j hj _
      exact selfjoin_init_QT T n m j hj
    · intro k hk
      exact selfjoin_init_P T n m k hk
  | succ r ih =>
    intro hr
    obtain ⟨ihQT, ihP⟩ := ih (by omega)
    have hstep : selfjoin_steps T n m (r + 1)
        = selfjoin_row T n m (1 + r) (selfjoin_steps T n m r) := selfjoin_steps_succ T n m r
    set L := n - m + 1 with hLdef
    set E := excl_zone m with hEdef
    set s := selfjoin_steps T n m r with hsdef
    have hqveq : ∀ j, j < L → 1 + r + E + 1 ≤ j →
        sj_qv T m (1 + r) s j = QTval T T m (r + 1) j := by
      intro j hj hjge
      unfold sj_qv
      have hQTprev : s.QT (j - 1) = QTval T T m r (j - 1) := by
        refine ihQT (j - 1) (by omega) (Or.inr (by omega))
      rw [hQTprev]
      have h1 : 1 + r - 1 = r := by omega
      have h2 : j + m - 1 = j - 1 + m := by omega
      have h3 : 1 + r + m - 1 = r + m := by omega
      rw [h1, h2, h3]
      have hroll := QTval_roll T T m r (j - 1)
      have hj1 : j - 1 + 1 = j := by omega
      rw [hj1] at hroll
      rw [QTval_comm T m r (j - 1), ← hroll]
      exact QTval_comm T m j (r + 1)
    have hdveq : ∀ j, j < L → 1 + r + E + 1 ≤ j →
        sj_dv T m (1 + r) s j = rho T m (1 + r) j := by
      intro j hj hjge
      unfold sj_dv rho
      rw [hqveq j hj hjge]
      have : r + 1 = 1 + r := by omega
      rw [← this]
    constructor
    · intro j hj hcase
      have hjge : 1 + r + E + 1 ≤ j := by omega
      rw [hstep, selfjoin_row_QT]
      rw [← hLdef, ← hEdef]
      have hjl : j ∈ List.range' (1 + r + E + 1) (L - (1 + r + E + 1)) := by
        rw [List.mem_range'_1]
        omega
      rw [if_pos hjl]
      exact hqveq j hj hjge
    · intro k hk
      rw [hstep, selfjoin_row_P]
      rw [← hLdef, ← hEdef]
      by_cases hki : k = 1 + r
      · rw [if_pos hki]
        subst hki
        have hiL : 1 + r < L := by omega
        have hcongr : (List.range' (1 + r + E + 1) (L - (1 + r + E + 1))).foldl
            (fun acc j => max acc (sj_dv T m (1 + r) s j)) (s.P (1 + r))
            = (List.range' (1 + r + E + 1) (L - (1 + r + E + 1))).foldl
                (fun acc j => max acc (rho T m (1 + r) j)) (s.P (1 + r)) := by
          refine foldl_congr_mem _ _ _ _ ?_
          intro x hx acc
          rw [List.mem_range'_1] at hx
          rw [hdveq x (by omega) (by omega)]
        rw [hcongr, ihP (1 + r) hiL]
        unfold partialCorr
        rw [← hLdef, ← hEdef]
        have hc1 : min r (1 + r - E - 1) = 1 + r - E - 1 := by omega
        have hc2 : min (r + 1) (1 + r - E - 1) = 1 + r - E - 1 := by omega
        rw [hc1, hc2]
        have hif1 : ¬ (1 + r = 0 ∨ 1 + r ≤ r) := by omega
        have hif2 : (1 + r = 0 ∨ 1 + r ≤ r + 1) := by omega
        rw [if_neg hif1, if_pos hif2]
        simp only [List.append_nil, List.foldl_append, List.foldl_map]
      · rw [if_neg hki]
        by_cases hkl : k ∈ List.range' (1 + r + E + 1) (L - (1 + r + E + 1))
        · rw [if_pos hkl]
          rw [List.mem_range'_1] at hkl
          rw [hdveq k (by omega) (by omega), ihP k hk]
          unfold partialCorr
          rw [← hLdef, ← hEdef]
          have hc1 : min r (k - E - 1) = r := by omega
          have hc2 : min (r + 1) (k - E - 1) = r + 1 := by omega
          rw [hc1, hc2]
          have hif1 : ¬ (k = 0 ∨ k ≤ r) := by omega
          have hif2 : ¬ (k = 0 ∨ k ≤ r + 1) := by omega
          rw [if_neg hif1, if_neg hif2]
          rw [List.append_nil, List.append_nil, List.range'_1_concat, List.map_append,
            List.foldl_append]
          simp only [List.map_cons, List.map_nil, List.foldl_cons, List.foldl_nil]
        · rw [if_neg hkl]
          rw [List.mem_range'_1] at hkl
          rw [ihP k hk]
          unfold partialCorr
          rw [← hLdef, ← hEdef]
          have hklt : k < 1 + r + E + 1 := by omega
          have hc : min (r + 1) (k - E - 1) = min r (k - E - 1) := by omega
          rw [hc]
          have hif : (k = 0 ∨ k ≤ r + 1) ↔ (k = 0 ∨ k ≤ r) := by omega
          simp only [hif]

/-- After the full main loop, P[k] holds the running maximum `bestCorr`. -/
lemma selfjoin_main_P (T : ℕ → ℝ) (n m k : ℕ) (hk : k < n - m + 1) :
    (selfjoin_main T n m).P k = bestCorr T n m k := by
  have h := (selfjoin_inv T n m (n - m + 1 - 1) le_rfl).2 k hk
  show (selfjoin_steps T n m (n - m + 1 - 1)).P k = _
  rw [h]
  unfold partialCorr bestCorr
  have h1 : min (n - m + 1 - 1) (k - excl_zone m - 1) = k - excl_zone m - 1 := by omega
  have h2 : (k = 0 ∨ k ≤ n - m + 1 - 1) := by omega
  rw [h1, if_pos h2]

/-- Closed form of the z-normalized self-join: every profile entry is the
distance conversion of its best (sentinel-floored) correlation. -/
theorem selfjoin_core_eq (T : ℕ → ℝ) (n m k : ℕ) (hk : k < n - m + 1) :
    selfjoin_core T n m k = Real.sqrt (2 * m * (1 - bestCorr T n m k / m)) := by
  unfold selfjoin_core
  rw [foldl_update_char (fun i v => Real.sqrt (2 * ↑m * (1 - v / ↑m))) _ (List.nodup_range _)]
  rw [if_pos (List.mem_range.mpr hk), selfjoin_main_P T n m k hk]

/-- Every value folded into `bestCorr` is at most m, hence so is the
result: the argument of the final square root is never negative. -/
lemma bestCorr_le (T : ℕ → ℝ) (n m k : ℕ) (hm : m ≠ 0) :
    bestCorr T n m k ≤ (m : ℝ) := by
  have hm0 : (0 : ℝ) ≤ m := Nat.cast_nonneg m
  unfold bestCorr
  obtain ⟨h1, h2, h3⟩ := foldl_max_spec
    ((List.range' 1 (k - excl_zone m - 1)).map (fun a => rho T m a k)
      ++ (List.range' (k + excl_zone m + 1)
          (n - m + 1 - (k + excl_zone m + 1))).map (rho T m k))
    (if k ≤ excl_zone m then 0 else rho T m 0 k)
  rcases h3 with h | h
  · rw [h]
    by_cases hkE : k ≤ excl_zone m
    · rw [if_pos hkE]; exact hm0
    · rw [if_neg hkE]; exact rho_le T m 0 k hm
  · rcases List.mem_append.mp h with hmem | hmem
    · obtain ⟨a, _, ha⟩ := List.mem_map.mp hmem
      rw [← ha]; exact rho_le T m a k hm
    · obtain ⟨a, _, ha⟩ := List.mem_map.mp hmem
      rw [← ha]; exact rho_le T m k a hm

/-! Characterization of the raw-Euclidean self-join loops. -/

/-- The rolled dot-product value written at column j during main-loop
iteration i of the raw-Euclidean self-join. -/
def ed_qv (T : ℕ → ℝ) (m i : ℕ) (s : SJStateEd) (j : ℕ) : ℝ :=
  s.QT (j - 1) - T (j - 1) * T (i - 1) + T (j + m - 1) * T (i + m - 1)

/-- The squared distance computed at column j during main-loop iteration i
of the raw-Euclidean self-join. -/
def ed_dv (T : ℕ → ℝ) (m i : ℕ) (s : SJStateEd) (j : ℕ) : WithTop ℝ :=
  ((win_S T m i + win_S T m j - 2 * ed_qv T m i s j : ℝ) : WithTop ℝ)

/-- P[k] of the raw-Euclidean self-join after initialization and main-loop
iterations 1 .. r: the INFINITY sentinel (k ≤ E) or the seeded first-row
squared distance, min-ed with column and row contributions. -/
def partialDist (T : ℕ → ℝ) (n m r k : ℕ) : WithTop ℝ :=
  ((List.range' 1 (min r (k - excl_zone m - 1))).map
      (fun a => ((distsq T m a k : ℝ) : WithTop ℝ))
    ++ (if k = 0 ∨ k ≤ r then
          (List.range' (k + excl_zone m + 1)
            (n - m + 1 - (k + excl_zone m + 1))).map
              (fun j => ((distsq T m k j : ℝ) : WithTop ℝ))
        else [])).foldl
    min (if k ≤ excl_zone m then ⊤ else ((distsq T m 0 k : ℝ) : WithTop ℝ))

/-- The value the raw-Euclidean main loop leaves in P[k] before the square
root: the minimum admissible squared distance, seeded with the INFINITY
sentinel when k ≤ E. -/
def bestDist (T : ℕ → ℝ) (n m k : ℕ) : WithTop ℝ :=
  ((List.range' 1 (k - excl_zone m - 1)).map
      (fun a => ((distsq T m a k : ℝ) : WithTop ℝ))
    ++ (List.range' (k + excl_zone m + 1)
        (n - m + 1 - (k + excl_zone m + 1))).map
          (fun j => ((distsq T m k j : ℝ) : WithTop ℝ))).foldl
    min (if k ≤ excl_zone m then ⊤ else ((distsq T m 0 k : ℝ) : WithTop ℝ))

/-- After initialization the first dot-product row of the raw-Euclidean
self-join holds the window dot products against window 0. -/
lemma selfjoin_ed_init_QT (T : ℕ → ℝ) (n m : ℕ) (j : ℕ) (hj : j < n - m + 1) :
    (selfjoin_ed_init T n m).QT j = QTval T T m 0 j := by
  show sliding_dot_product_naive T T n m j = QTval T T m 0 j
  rw [sdp_naive_eq T T n m j hj]
  unfold QTval
  exact Finset.sum_congr rfl fun k _ => by rw [Nat.zero_add]

/-- The raw-Euclidean initialization phase realizes `partialDist` at
r = 0. -/
lemma selfjoin_ed_init_P (T : ℕ → ℝ) (n m : ℕ) (k : ℕ) (hk : k < n - m + 1) :
    (selfjoin_ed_init T n m).P k = partialDist T n m 0 k := by
  set L := n - m + 1 with hLdef
  set E := excl_zone m with hEdef
  set QT0 := sliding_dot_product_naive T T n m with hQT0
  set v : ℕ → WithTop ℝ := fun j =>
    ((win_S T m 0 + win_S T m j - 2 * QT0 j : ℝ) : WithTop ℝ) with hv
  have hvdist : ∀ j, j < L → v j = ((distsq T m 0 j : ℝ) : WithTop ℝ) := by
    intro j hj
    rw [hv]
    show ((win_S T m 0 + win_S T m j - 2 * QT0 j : ℝ) : WithTop ℝ) = _
    rw [hQT0]
    unfold distsq
    rw [sdp_naive_eq T T n m j hj]
    have : ∑ k ∈ Finset.range m, T k * T (j + k)
        = QTval T T m 0 j := by
      unfold QTval
      exact Finset.sum_congr rfl fun k _ => by rw [Nat.zero_add]
    rw [this]
  have hP1 : ∀ kk, ((List.range L).foldl (fun P j => Function.update P j (v j))
      (fun _ => (0 : WithTop ℝ))) kk = if kk ∈ List.range L then v kk else 0 :=
    fun kk => foldl_update_const v _ (List.nodup_range _) _ kk
  set P1 := (List.range L).foldl (fun P j => Function.update P j (v j))
      (fun _ => (0 : WithTop ℝ)) with hP1def
  have hP2 : ∀ kk, ((List.range (E + 1)).foldl
      (fun P j => Function.update P j (⊤ : WithTop ℝ)) P1) kk
      = if kk ∈ List.range (E + 1) then ⊤ else P1 kk :=
    fun kk => foldl_update_const (fun _ => (⊤ : WithTop ℝ)) _ (List.nodup_range _) _ kk
  set P2 := (List.range (E + 1)).foldl
      (fun P j => Function.update P j (⊤ : WithTop ℝ)) P1 with hP2def
  have h0notin : 0 ∉ List.range' (E + 1) (L - (E + 1)) := by
    intro h
    rw [List.mem_range'_1] at h
    omega
  have hP3 := foldl_acc_char (min : WithTop ℝ → WithTop ℝ → WithTop ℝ)
    (List.range' (E + 1) (L - (E + 1))) h0notin P2
  have hgoal : (selfjoin_ed_init T n m).P k
      = Function.update P2 0 ((List.range' (E + 1) (L - (E + 1))).foldl
          (fun acc j => min acc (P2 j)) (P2 0)) k := by
    show ((List.range' (E + 1) (L - (E + 1))).foldl
        (fun P j => Function.update P 0 (min (P 0) (P j))) P2) k = _
    rw [hP3]
  rw [hgoal]
  by_cases hk0 : k = 0
  · subst hk0
    rw [Function.update_same]
    have hP20 : P2 0 = ⊤ := by
      rw [hP2]
      simp [List.mem_range]
    have hcongr : (List.range' (E + 1) (L - (E + 1))).foldl
        (fun acc j => min acc (P2 j)) (P2 0)
        = (List.range' (E + 1) (L - (E + 1))).foldl
            (fun acc j => min acc ((distsq T m 0 j : ℝ) : WithTop ℝ)) (P2 0) := by
      refine foldl_congr_mem _ _ _ _ ?_
      intro x hx acc
      rw [List.mem_range'_1] at hx
      have hxL : x < L := by omega
      have hxE : ¬ x < E + 1 := by omega
      have : P2 x = v x := by
        rw [hP2, hP1]
        simp [List.mem_range, hxL, hxE]
      rw [this, hvdist x hxL]
    rw [hcongr, hP20]
    unfold partialDist
    rw [← hLdef, ← hEdef]
    have hmin : min 0 (0 - E - 1) = 0 := by omega
    rw [hmin]
    simp only [List.range'_zero, List.map_nil, List.nil_append, true_or, if_true,
      Nat.zero_le, List.foldl_map, Nat.zero_add]
  · rw [Function.update_noteq hk0]
    by_cases hkE : k ≤ E
    · have : P2 k = ⊤ := by
        rw [hP2]
        simp [List.mem_range]
        omega
      rw [this]
      unfold partialDist
      rw [← hEdef]
      have hmin : min 0 (k - E - 1) = 0 := by omega
      rw [hmin]
      have hif : ¬ (k = 0 ∨ k ≤ 0) := by omega
      simp only [List.range'_zero, List.map_nil, List.nil_append, if_neg hif]
      rw [if_pos hkE]
      rfl
    · have : P2 k = v k := by
        rw [hP2, hP1]
        have c1 : k ∉ List.range (E + 1) := by simp [List.mem_range]; omega
        have c2 : k ∈ List.range L := by simp [List.mem_range]; omega
        simp [c1, c2]
      rw [this, hvdist k hk]
      unfold partialDist
      rw [← hLdef, ← hEdef]
      have hmin : min 0 (k - E - 1) = 0 := by omega
      rw [hmin]
      have hif : ¬ (k = 0 ∨ k ≤ 0) := by omega
      simp only [List.range'_zero, List.map_nil, List.nil_append, if_neg hif]
      rw [if_neg hkE]
      rfl

/-- Pointwise description of the dot-product row written by one main-loop
iteration of the raw-Euclidean self-join. -/
lemma selfjoin_ed_row_QT (T : ℕ → ℝ) (n m i : ℕ) (s : SJStateEd) (k : ℕ) :
    (selfjoin_ed_row T n m i s).QT k
      = if k ∈ List.range' (i + excl_zone m + 1) (n - m + 1 - (i + excl_zone m + 1))
        then ed_qv T m i s k else s.QT2 k :=
  (foldl_row_char min (ed_qv T m i s) (ed_dv T m i s)
    _ (List.nodup_range' _ _) s.QT2 s.P (s.P i)).1 k

/-- Pointwise description of the profile written by one main-loop iteration
of the raw-Euclidean self-join. -/
lemma selfjoin_ed_row_P (T : ℕ → ℝ) (n m i : ℕ) (s : SJStateEd) (k : ℕ) :
    (selfjoin_ed_row T n m i s).P k
      = if k = i
        then (List.range' (i + excl_zone m + 1) (n - m + 1 - (i + excl_zone m + 1))).foldl
              (fun acc j => min acc (ed_dv T m i s j)) (s.P i)
        else if k ∈ List.range' (i + excl_zone m + 1) (n - m + 1 - (i + excl_zone m + 1))
          then min (s.P k) (ed_dv T m i s k) else s.P k := by
  obtain ⟨hq, hp, hacc⟩ := foldl_row_char min (ed_qv T m i s) (ed_dv T m i s)
    (List.range' (i + excl_zone m + 1) (n - m + 1 - (i + excl_zone m + 1)))
    (List.nodup_range' _ _) s.QT2 s.P (s.P i)
  by_cases hk : k = i
  · subst hk
    show Function.update _ k _ k = _
    rw [Function.update_same, if_pos rfl]
    exact hacc
  · show Function.update _ i _ k = _
    rw [Function.update_noteq hk, if_neg hk]
    exact hp k

/-- Unrolling the last main-loop iteration of the raw-Euclidean
self-join. -/
lemma selfjoin_ed_steps_succ (T : ℕ → ℝ) (n m r : ℕ) :
    selfjoin_ed_steps T n m (r + 1)
      = selfjoin_ed_row T n m (1 + r) (selfjoin_ed_steps T n m r) := by
  unfold selfjoin_ed_steps
  rw [List.range'_1_concat, List.foldl_append, List.foldl_cons, List.foldl_nil]

/-- Main-loop invariant of the raw-Euclidean self-join. -/
theorem selfjoin_ed_inv (T : ℕ → ℝ) (n m : ℕ) :
    ∀ r, r ≤ n - m + 1 - 1 →
      (∀ j, j < n - m + 1 → (r = 0 ∨ r + excl_zone m + 1 ≤ j) →
        (selfjoin_ed_steps T n m r).QT j = QTval T T m r j)
      ∧ (∀ k, k < n - m + 1 → (selfjoin_ed_steps T n m r).P k = partialDist T n m r k) := by
  intro r
  induction r with
  | zero =>
    intro _
    constructor
    · intro j hj _
      exact selfjoin_ed_init_QT T n m j hj
    · intro k hk
      exact selfjoin_ed_init_P T n m k hk
  | succ r ih =>
    intro hr
    obtain ⟨ihQT, ihP⟩ := ih (by omega)
    have hstep : selfjoin_ed_steps T n m (r + 1)
        = selfjoin_ed_row T n m (1 + r) (selfjoin_ed_steps T n m r) :=
      selfjoin_ed_steps_succ T n m r
    set L := n - m + 1 with hLdef
    set E := excl_zone m with hEdef
    set s := selfjoin_ed_steps T n m r with hsdef
    have hqveq : ∀ j, j < L → 1 + r + E + 1 ≤ j →
        ed_qv T m (1 + r) s j = QTval T T m (r + 1) j := by
      intro j hj hjge
      unfold ed_qv
      have hQTprev : s.QT (j - 1) = QTval T T m r (j - 1) := by
        refine ihQT (j - 1) (by omega) (Or.inr (by omega))
      rw [hQTprev]
      have h1 : 1 + r - 1 = r := by omega
      have h2 : j + m - 1 = j - 1 + m := by omega
      have h3 : 1 + r + m - 1 = r + m := by omega
      rw [h1, h2, h3]
      have hroll := QTval_roll T T m r (j - 1)
      have hj1 : j - 1 + 1 = j := by omega
      rw [hj1] at hroll
      rw [QTval_comm T m r (j - 1), ← hroll]
      exact QTval_comm T m j (r + 1)
    have hdveq : ∀ j, j < L → 1 + r + E + 1 ≤ j →
        ed_dv T m (1 + r) s j = ((distsq T m (1 + r) j : ℝ) : WithTop ℝ) := by
      intro j hj hjge
      unfold ed_dv distsq
      rw [hqveq j hj hjge]
      have : r + 1 = 1 + r := by omega
      rw [← this]
    constructor
    · intro j hj hcase
      have hjge : 1 + r + E + 1 ≤ j := by omega
      rw [hstep, selfjoin_ed_row_QT]
      rw [← hLdef, ← hEdef]
      have hjl : j ∈ List.range' (1 + r + E + 1) (L - (1 + r + E + 1)) := by
        rw [List.mem_range'_1]
        omega
      rw [if_pos hjl]
      exact hqveq j hj hjge
    · intro k hk
      rw [hstep, selfjoin_ed_row_P]
      rw [← hLdef, ← hEdef]
      by_cases hki : k = 1 + r
      · rw [if_pos hki]
        subst hki
        have hiL : 1 + r < L := by omega
        have hcongr : (List.range' (1 + r + E + 1) (L - (1 + r + E + 1))).foldl
            (fun acc j => min acc (ed_dv T m (1 + r) s j)) (s.P (1 + r))
            = (List.range' (1 + r + E + 1) (L - (1 + r + E + 1))).foldl
                (fun acc j => min acc ((distsq T m (1 + r) j : ℝ) : WithTop ℝ))
                (s.P (1 + r)) := by
          refine foldl_congr_mem _ _ _ _ ?_
          intro x hx acc
          rw [List.mem_range'_1] at hx
          rw [hdveq x (by omega) (by omega)]
        rw [hcongr, ihP (1 + r) hiL]
        unfold partialDist
        rw [← hLdef, ← hEdef]
        have hc1 : min r (1 + r - E - 1) = 1 + r - E - 1 := by omega
        have hc2 : min (r + 1) (1 + r - E - 1) = 1 + r - E - 1 := by omega
        rw [hc1, hc2]
        have hif1 : ¬ (1 + r = 0 ∨ 1 + r ≤ r) := by omega
        have hif2 : (1 + r = 0 ∨ 1 + r ≤ r + 1) := by omega
        rw [if_neg hif1, if_pos hif2]
        simp only [List.append_nil, List.foldl_append, List.foldl_map]
      · rw [if_neg hki]
        by_cases hkl : k ∈ List.range' (1 + r + E + 1) (L - (1 + r + E + 1))
        · rw [if_pos hkl]
          rw [List.mem_range'_1] at hkl
          rw [hdveq k (by omega) (by omega), ihP k hk]
          unfold partialDist
          rw [← hLdef, ← hEdef]
          have hc1 : min r (k - E - 1) = r := by omega
          have hc2 : min (r + 1) (k - E - 1) = r + 1 := by omega
          rw [hc1, hc2]
          have hif1 : ¬ (k = 0 ∨ k ≤ r) := by omega
          have hif2 : ¬ (k = 0 ∨ k ≤ r + 1) := by omega
          rw [if_neg hif1, if_neg hif2]
          rw [List.append_nil, List.append_nil, List.range'_1_concat, List.map_append,
            List.foldl_append]
          simp only [List.map_cons, List.map_nil, List.foldl_cons, List.foldl_nil]
        · rw [if_neg hkl]
          rw [List.mem_range'_1] at hkl
          rw [ihP k hk]
          unfold partialDist
          rw [← hLdef, ← hEdef]
          have hklt : k < 1 + r + E + 1 := by omega
          have hc : min (r + 1) (k - E - 1) = min r (k - E - 1) := by omega
          rw [hc]
          have hif : (k = 0 ∨ k ≤ r + 1) ↔ (k = 0 ∨ k ≤ r) := by omega
          simp only [hif]

/-- After the full main loop, the raw-Euclidean P[k] holds the running
minimum `bestDist`. -/
lemma selfjoin_ed_main_P (T : ℕ → ℝ) (n m k : ℕ) (hk : k < n - m + 1) :
    (selfjoin_ed_main T n m).P k = bestDist T n m k := by
  have h := (selfjoin_ed_inv T n m (n - m + 1 - 1) le_rfl).2 k hk
  show (selfjoin_ed_steps T n m (n - m + 1 - 1)).P k = _
  rw [h]
  unfold partialDist bestDist
  have h1 : min (n - m + 1 - 1) (k - excl_zone m - 1) = k - excl_zone m - 1 := by omega
  have h2 : (k = 0 ∨ k ≤ n - m + 1 - 1) := by omega
  rw [h1, if_pos h2]

/-- Closed form of the raw-Euclidean self-join: every profile entry is the
square root of its best (INFINITY-seeded) admissible squared distance. -/
theorem selfjoin_ed_core_eq (T : ℕ → ℝ) (n m k : ℕ) (hk : k < n - m + 1) :
    selfjoin_ed_core T n m k = sqrtT (bestDist T n m k) := by
  unfold selfjoin_ed_core
  rw [foldl_update_char (fun i v => sqrtT v) _ (List.nodup_range _)]
  rw [if_pos (List.mem_range.mpr hk), selfjoin_ed_main_P T n m k hk]

/-! Characterization of the z-normalized ab-join loops. -/

/-- The rolled dot-product value written at column j during outer
iteration i of the ab-join. -/
def ab_qv (T1 T2 : ℕ → ℝ) (m i : ℕ) (s : ABState) (j : ℕ) : ℝ :=
  s.QT (j - 1) - T1 (j - 1) * T2 (i - 1) + T1 (j + m - 1) * T2 (i + m - 1)

/-- The score computed at column j during outer iteration i of the
ab-join. -/
def ab_dv (T1 T2 : ℕ → ℝ) (m i : ℕ) (s : ABState) (j : ℕ) : ℝ :=
  (ab_qv T1 T2 m i s j - m * win_mu T1 m j * win_mu T2 m i)
    * sigma_inv T1 m j * sigma_inv T2 m i

/-- The re-seeded score for column 0 at outer iteration i of the
ab-join. -/
def ab_seed (T1 T2 : ℕ → ℝ) (m i : ℕ) : ℝ :=
  (sliding_dot_product_naive T1 (fun k => T2 (i + k)) m m 0
      - m * win_mu T1 m 0 * win_mu T2 m i) * sigma_inv T1 m 0 * sigma_inv T2 m i

/-- P[j] of the ab-join after outer iterations 1 .. r: every column is
seeded with its score against window 0 of T2 and maxed with every
processed row. -/
def partialAb (T1 T2 : ℕ → ℝ) (m r j : ℕ) : ℝ :=
  ((List.range' 1 r).map (rho_ab T1 T2 m j)).foldl max (rho_ab T1 T2 m j 0)

/-- The value the ab-join outer loop leaves in P[j] before the distance
conversion: the maximum correlation against every window of T2. -/
def bestCorrAb (T1 T2 : ℕ → ℝ) (n2 m j : ℕ) : ℝ :=
  ((List.range' 1 (n2 - m + 1 - 1)).map (rho_ab T1 T2 m j)).foldl
    max (rho_ab T1 T2 m j 0)

/-- Pointwise description of the dot-product row written by one outer
iteration of the ab-join. -/
lemma abjoin_row_QT (T1 T2 : ℕ → ℝ) (n1 n2 m i : ℕ) (s : ABState) (k : ℕ) :
    (abjoin_row T1 T2 n1 n2 m i s).QT k
      = if k ∈ List.range' 1 (n1 - m + 1 - 1) then ab_qv T1 T2 m i s k
        else Function.update s.QT2 0
          (sliding_dot_product_naive T1 (fun kk => T2 (i + kk)) m m 0) k :=
  (foldl_row2_char max (ab_qv T1 T2 m i s) (ab_dv T1 T2 m i s)
    _ (List.nodup_range' _ _)
    (Function.update s.QT2 0 (sliding_dot_product_naive T1 (fun kk => T2 (i + kk)) m m 0))
    (Function.update s.P 0 (max (s.P 0) (ab_seed T1 T2 m i)))).1 k

/-- Pointwise description of the profile written by one outer iteration of
the ab-join. -/
lemma abjoin_row_P (T1 T2 : ℕ → ℝ) (n1 n2 m i : ℕ) (s : ABState) (k : ℕ) :
    (abjoin_row T1 T2 n1 n2 m i s).P k
      = if k ∈ List.range' 1 (n1 - m + 1 - 1)
        then max ((Function.update s.P 0 (max (s.P 0) (ab_seed T1 T2 m i))) k)
              (ab_dv T1 T2 m i s k)
        else (Function.update s.P 0 (max (s.P 0) (ab_seed T1 T2 m i))) k :=
  (foldl_row2_char max (ab_qv T1 T2 m i s) (ab_dv T1 T2 m i s)
    _ (List.nodup_range' _ _)
    (Function.update s.QT2 0 (sliding_dot_product_naive T1 (fun kk => T2 (i + kk)) m m 0))
    (Function.update s.P 0 (max (s.P 0) (ab_seed T1 T2 m i)))).2 k

/-- The re-seeded dot product is the direct window dot product. -/
lemma ab_seed_dot (T1 T2 : ℕ → ℝ) (m i : ℕ) :
    sliding_dot_product_naive T1 (fun k => T2 (i + k)) m m 0 = QTval T1 T2 m 0 i := by
  rw [sdp_naive_eq T1 (fun k => T2 (i + k)) m m 0 (by omega)]
  unfold QTval
  exact Finset.sum_congr rfl fun k _ => by rw [Nat.zero_add, mul_comm]

/-- The re-seeded score is the correlation of columns 0 and i. -/
lemma ab_seed_rho (T1 T2 : ℕ → ℝ) (m i : ℕ) :
    ab_seed T1 T2 m i = rho_ab T1 T2 m 0 i := by
  unfold ab_seed rho_ab
  rw [ab_seed_dot]

/-- After initialization the ab-join dot-product row holds the window dot
products against window 0 of T2. -/
lemma abjoin_init_QT (T1 T2 : ℕ → ℝ) (n1 n2 m : ℕ) (j : ℕ) (hj : j < n1 - m + 1) :
    (abjoin_init T1 T2 n1 n2 m).QT j = QTval T1 T2 m j 0 := by
  show sliding_dot_product_naive T1 T2 n1 m j = QTval T1 T2 m j 0
  rw [sdp_naive_eq T1 T2 n1 m j hj]
  unfold QTval
  exact Finset.sum_congr rfl fun k _ => by rw [Nat.zero_add, mul_comm]

/-- The ab-join initialization realizes `partialAb` at r = 0. -/
lemma abjoin_init_P (T1 T2 : ℕ → ℝ) (n1 n2 m : ℕ) (j : ℕ) (hj : j < n1 - m + 1) :
    (abjoin_init T1 T2 n1 n2 m).P j = partialAb T1 T2 m 0 j := by
  set v : ℕ → ℝ := fun jj =>
    (sliding_dot_product_naive T1 T2 n1 m jj - m * win_mu T1 m jj * win_mu T2 m 0)
      * sigma_inv T1 m jj * sigma_inv T2 m 0 with hv
  have hshow : (abjoin_init T1 T2 n1 n2 m).P j
      = ((List.range (n1 - m + 1)).foldl
          (fun P jj => Function.update P jj (v jj)) (fun _ => (0 : ℝ))) j := rfl
  rw [hshow, foldl_update_const v _ (List.nodup_range _), if_pos (List.mem_range.mpr hj)]
  rw [hv]
  show (sliding_dot_product_naive T1 T2 n1 m j - _) * _ * _ = _
  rw [sdp_naive_eq T1 T2 n1 m j hj]
  unfold partialAb
  simp only [List.range'_zero, List.map_nil, List.foldl_nil]
  unfold rho_ab QTval
  have : ∑ k ∈ Finset.range m, T2 k * T1 (j + k)
      = ∑ k ∈ Finset.range m, T1 (j + k) * T2 (0 + k) :=
    Finset.sum_congr rfl fun k _ => by rw [Nat.zero_add, mul_comm]
  rw [this]

/-- Unrolling the last outer iteration of the ab-join. -/
lemma abjoin_steps_succ (T1 T2 : ℕ → ℝ) (n1 n2 m r : ℕ) :
    abjoin_steps T1 T2 n1 n2 m (r + 1)
      = abjoin_row T1 T2 n1 n2 m (1 + r) (abjoin_steps T1 T2 n1 n2 m r) := by
  unfold abjoin_steps
  rw [List.range'_1_concat, List.foldl_append, List.foldl_cons, List.foldl_nil]

/-- Outer-loop invariant of the ab-join: the active dot-product row holds
the dot products against window r of T2 at every column, and every profile
cell holds its partial running maximum. -/
theorem abjoin_inv (T1 T2 : ℕ → ℝ) (n1 n2 m : ℕ) :
    ∀ r, r ≤ n2 - m + 1 - 1 →
      (∀ j, j < n1 - m + 1 → (abjoin_steps T1 T2 n1 n2 m r).QT j = QTval T1 T2 m j r)
      ∧ (∀ j, j < n1 - m + 1 →
          (abjoin_steps T1 T2 n1 n2 m r).P j = partialAb T1 T2 m r j) := by
  intro r
  induction r with
  | zero =>
    intro _
    exact ⟨fun j hj => abjoin_init_QT T1 T2 n1 n2 m j hj,
      fun j hj => abjoin_init_P T1 T2 n1 n2 m j hj⟩
  | succ r ih =>
    intro hr
    obtain ⟨ihQT, ihP⟩ := ih (by omega)
    have hstep : abjoin_steps T1 T2 n1 n2 m (r + 1)
        = abjoin_row T1 T2 n1 n2 m (1 + r) (abjoin_steps T1 T2 n1 n2 m r) :=
      abjoin_steps_succ T1 T2 n1 n2 m r
    set L1 := n1 - m + 1 with hL1def
    set s := abjoin_steps T1 T2 n1 n2 m r with hsdef
    have hqveq : ∀ j, j < L1 → 1 ≤ j →
        ab_qv T1 T2 m (1 + r) s j = QTval T1 T2 m j (r + 1) := by
      intro j hj hj1
      unfold ab_qv
      have hQTprev : s.QT (j - 1) = QTval T1 T2 m (j - 1) r := ihQT (j - 1) (by omega)
      rw [hQTprev]
      have h1 : 1 + r - 1 = r := by omega
      have h2 : j + m - 1 = j - 1 + m := by omega
      have h3 : 1 + r + m - 1 = r + m := by omega
      rw [h1, h2, h3]
      have hroll := QTval_roll T1 T2 m r (j - 1)
      have hj1' : j - 1 + 1 = j := by omega
      rw [hj1'] at hroll
      rw [← hroll]
    have hdveq : ∀ j, j < L1 → 1 ≤ j →
        ab_dv T1 T2 m (1 + r) s j = rho_ab T1 T2 m j (1 + r) := by
      intro j hj hj1
      unfold ab_dv rho_ab
      rw [hqveq j hj hj1]
      have : r + 1 = 1 + r := by omega
      rw [← this]
    have hpartial_succ : ∀ j, partialAb T1 T2 m (r + 1) j
        = max (partialAb T1 T2 m r j) (rho_ab T1 T2 m j (1 + r)) := by
      intro j
      unfold partialAb
      rw [List.range'_1_concat, List.map_append, List.foldl_append]
      simp only [List.map_cons, List.map_nil, List.foldl_cons, List.foldl_nil]
    constructor
    · intro j hj
      rw [hstep, abjoin_row_QT]
      rw [← hL1def]
      by_cases hj0 : j = 0
      · subst hj0
        have h0notin : (0 : ℕ) ∉ List.range' 1 (L1 - 1) := by
          intro h
          rw [List.mem_range'_1] at h
          omega
        rw [if_neg h0notin, Function.update_same, ab_seed_dot]
        have : r + 1 = 1 + r := by omega
        rw [this]
      · have hjl : j ∈ List.range' 1 (L1 - 1) := by
          rw [List.mem_range'_1]
          omega
        rw [if_pos hjl]
        exact hqveq j hj (by omega)
    · intro j hj
      rw [hstep, abjoin_row_P]
      rw [← hL1def]
      by_cases hj0 : j = 0
      · subst hj0
        have h0notin : (0 : ℕ) ∉ List.range' 1 (L1 - 1) := by
          intro h
          rw [List.mem_range'_1] at h
          omega
        rw [if_neg h0notin, Function.update_same, ab_seed_rho]
        rw [ihP 0 hj, hpartial_succ 0]
      · have hjl : j ∈ List.range' 1 (L1 - 1) := by
          rw [List.mem_range'_1]
          omega
        rw [if_pos hjl, Function.update_noteq hj0]
        rw [hdveq j hj (by omega), ihP j hj, hpartial_succ j]

/-- After the full outer loop, P[j] holds the running maximum
`bestCorrAb`. -/
lemma abjoin_main_P (T1 T2 : ℕ → ℝ) (n1 n2 m j : ℕ) (hj : j < n1 - m + 1) :
    (abjoin_main T1 T2 n1 n2 m).P j = bestCorrAb T1 T2 n2 m j := by
  have h := (abjoin_inv T1 T2 n1 n2 m (n2 - m + 1 - 1) le_rfl).2 j hj
  show (abjoin_steps T1 T2 n1 n2 m (n2 - m + 1 - 1)).P j = _
  rw [h]
  rfl

/-- Closed form of the z-normalized ab-join: every profile entry is the
distance conversion of its best correlation over all windows of T2. -/
theorem abjoin_core_eq (T1 T2 : ℕ → ℝ) (n1 n2 m j : ℕ) (hj : j < n1 - m + 1) :
    abjoin_core T1 T2 n1 n2 m j
      = Real.sqrt (2 * m * (1 - bestCorrAb T1 T2 n2 m j / m)) := by
  unfold abjoin_core
  rw [foldl_update_char (fun i v => Real.sqrt (2 * ↑m * (1 - v / ↑m))) _ (List.nodup_range _)]
  rw [if_pos (List.mem_range.mpr hj), abjoin_main_P T1 T2 n1 n2 m j hj]

/-! The reference formulations the claims compare against. -/

/-- The admissible partners of window k in a self-join of L windows with
exclusion zone E: every j < L with |k − j| > E. -/
def admList (L E k : ℕ) : List ℕ :=
  (List.range L).filter (fun j => decide (k + E < j ∨ j + E < k))

lemma mem_admList (L E k j : ℕ) :
    j ∈ admList L E k ↔ j < L ∧ (k + E < j ∨ j + E < k) := by
  simp [admList, List.mem_filter, List.mem_range]

/-- The reference O(L²) double loop of claim C1: materialize the
z-normalized distance of every admissible pair of windows and min-reduce
each row, a cell with no admissible partner remaining at +∞. -/
def ref_selfjoin (T : ℕ → ℝ) (n m k : ℕ) : WithTop ℝ :=
  ((admList (n - m + 1) (excl_zone m) k).map
    (fun j => ((dz T m k j : ℝ) : WithTop ℝ))).foldl min ⊤

/-- The distance-conversion argument with the division resolved. -/
lemma dz_conv_arg (m : ℕ) (hm : m ≠ 0) (z : ℝ) :
    2 * (m : ℝ) * (1 - z / m) = 2 * m - 2 * z := by
  have hmR : (m : ℝ) ≠ 0 := Nat.cast_ne_zero.mpr hm
  field_simp
  ring

/-- The distance conversion is antitone in the correlation. -/
lemma dz_conv_antitone (m : ℕ) (hm : m ≠ 0) {x y : ℝ} (hxy : x ≤ y) :
    Real.sqrt (2 * m * (1 - y / m)) ≤ Real.sqrt (2 * m * (1 - x / m)) := by
  apply Real.sqrt_le_sqrt
  rw [dz_conv_arg m hm, dz_conv_arg m hm]
  linarith

/-- Order description of `bestCorr`: the seed and every folded score bound
it from below, and it is attained at the seed or at a folded score. -/
lemma bestCorr_spec (T : ℕ → ℝ) (n m k : ℕ) :
    (if k ≤ excl_zone m then 0 else rho T m 0 k) ≤ bestCorr T n m k
    ∧ (∀ x ∈ (List.range' 1 (k - excl_zone m - 1)).map (fun a => rho T m a k)
        ++ (List.range' (k + excl_zone m + 1)
            (n - m + 1 - (k + excl_zone m + 1))).map (rho T m k),
        x ≤ bestCorr T n m k)
    ∧ (bestCorr T n m k = (if k ≤ excl_zone m then 0 else rho T m 0 k)
        ∨ bestCorr T n m k
            ∈ (List.range' 1 (k - excl_zone m - 1)).map (fun a => rho T m a k)
              ++ (List.range' (k + excl_zone m + 1)
                  (n - m + 1 - (k + excl_zone m + 1))).map (rho T m k)) :=
  foldl_max_spec _ _

/-- Every admissible correlation is bounded by the loop's running
maximum. -/
lemma bestCorr_ub (T : ℕ → ℝ) (n m k : ℕ) (hk : k < n - m + 1) :
    ∀ j, j < n - m + 1 → (k + excl_zone m < j ∨ j + excl_zone m < k) →
      rho T m k j ≤ bestCorr T n m k := by
  intro j hj hadm
  obtain ⟨h1, h2, _⟩ := bestCorr_spec T n m k
  rcases hadm with hr | hc
  · refine h2 _ (List.mem_append_right _ ?_)
    exact List.mem_map.mpr ⟨j, by rw [List.mem_range'_1]; omega, rfl⟩
  · by_cases hj0 : j = 0
    · subst hj0
      have hkE : ¬ k ≤ excl_zone m := by omega
      rw [if_neg hkE] at h1
      calc rho T m k 0 = rho T m 0 k := rho_comm T m k 0
        _ ≤ _ := h1
    · have hmem : rho T m j k
          ∈ (List.range' 1 (k - excl_zone m - 1)).map (fun a => rho T m a k) :=
        List.mem_map.mpr ⟨j, by rw [List.mem_range'_1]; omega, rfl⟩
      calc rho T m k j = rho T m j k := rho_comm T m k j
        _ ≤ _ := h2 _ (List.mem_append_left _ hmem)

/-- The loop's running maximum is the sentinel 0 (only possible inside the
exclusion zone) or an admissible correlation. -/
lemma bestCorr_attain (T : ℕ → ℝ) (n m k : ℕ) (hk : k < n - m + 1) :
    (bestCorr T n m k = 0 ∧ k ≤ excl_zone m)
      ∨ ∃ j, j < n - m + 1 ∧ (k + excl_zone m < j ∨ j + excl_zone m < k)
          ∧ bestCorr T n m k = rho T m k j := by
  obtain ⟨h1, h2, h3⟩ := bestCorr_spec T n m k
  rcases h3 with h | h
  · by_cases hkE : k ≤ excl_zone m
    · rw [if_pos hkE] at h
      exact Or.inl ⟨h, hkE⟩
    · rw [if_neg hkE] at h
      refine Or.inr ⟨0, by omega, Or.inr (by omega), ?_⟩
      rw [h]
      exact rho_comm T m 0 k
  · rcases List.mem_append.mp h with hmem | hmem
    · obtain ⟨a, ha, haeq⟩ := List.mem_map.mp hmem
      rw [List.mem_range'_1] at ha
      refine Or.inr ⟨a, by omega, Or.inr (by omega), ?_⟩
      rw [← haeq]
      exact rho_comm T m a k
    · obtain ⟨a, ha, haeq⟩ := List.mem_map.mp hmem
      rw [List.mem_range'_1] at ha
      exact Or.inr ⟨a, by omega, Or.inl (by omega), haeq.symm⟩

/-- If x is an attained upper bound of the admissible correlations of k,
the reference row minimum is the distance conversion of x. -/
lemma ref_eq_conv (T : ℕ → ℝ) (n m k : ℕ) (hm : m ≠ 0) (x : ℝ)
    (hmem : ∃ j ∈ admList (n - m + 1) (excl_zone m) k, rho T m k j = x)
    (hub : ∀ j ∈ admList (n - m + 1) (excl_zone m) k, rho T m k j ≤ x) :
    ref_selfjoin T n m k = ((Real.sqrt (2 * m * (1 - x / m)) : ℝ) : WithTop ℝ) := by
  obtain ⟨jx, hjx, hjxval⟩ := hmem
  obtain ⟨h1, h2, h3⟩ := foldl_min_spec
    ((admList (n - m + 1) (excl_zone m) k).map
      (fun j => ((dz T m k j : ℝ) : WithTop ℝ))) (⊤ : WithTop ℝ)
  set F := ((admList (n - m + 1) (excl_zone m) k).map
      (fun j => ((dz T m k j : ℝ) : WithTop ℝ))).foldl min ⊤ with hF
  have hFle : F ≤ ((dz T m k jx : ℝ) : WithTop ℝ) :=
    h2 _ (List.mem_map.mpr ⟨jx, hjx, rfl⟩)
  have hFne : F ≠ ⊤ := by
    intro htop
    rw [htop] at hFle
    exact (lt_irrefl _ (lt_of_le_of_lt hFle (WithTop.coe_lt_top _)))
  rcases h3 with h | h
  · exact absurd h hFne
  · obtain ⟨j1, hj1, hj1eq⟩ := List.mem_map.mp h
    have hge : ((dz T m k jx : ℝ) : WithTop ℝ) ≤ F := by
      rw [← hj1eq]
      rw [WithTop.coe_le_coe]
      unfold dz
      rw [hjxval]
      exact dz_conv_antitone m hm (hub j1 hj1)
    have hFeq : F = ((dz T m k jx : ℝ) : WithTop ℝ) := le_antisymm hFle hge
    show F = _
    rw [hFeq]
    unfold dz
    rw [hjxval]

/-- Code–reference equivalence for the z-normalized self-join: whenever
every index inside the exclusion zone has an admissible partner of
nonnegative correlation, the loop output equals the reference row
minimum. -/
lemma selfjoin_eq_ref (T : ℕ → ℝ) (n m : ℕ) (hm : m ≠ 0)
    (hgood : ∀ i, i < n - m + 1 → i ≤ excl_zone m →
      ∃ j ∈ admList (n - m + 1) (excl_zone m) i, 0 ≤ rho T m i j) :
    ∀ k, k < n - m + 1 →
      ((selfjoin_core T n m k : ℝ) : WithTop ℝ) = ref_selfjoin T n m k := by
  intro k hk
  rw [selfjoin_core_eq T n m k hk]
  have hub : ∀ j ∈ admList (n - m + 1) (excl_zone m) k,
      rho T m k j ≤ bestCorr T n m k := by
    intro j hj
    rw [mem_admList] at hj
    exact bestCorr_ub T n m k hk j hj.1 hj.2
  have hmem : ∃ j ∈ admList (n - m + 1) (excl_zone m) k,
      rho T m k j = bestCorr T n m k := by
    rcases bestCorr_attain T n m k hk with ⟨h0, hkE⟩ | ⟨j, hj, hadm, heq⟩
    · obtain ⟨j0, hj0, hj0pos⟩ := hgood k hk hkE
      exact ⟨j0, hj0, le_antisymm (hub j0 hj0) (h0 ▸ hj0pos)⟩
    · exact ⟨j, (mem_admList _ _ _ _).mpr ⟨hj, hadm⟩, heq.symm⟩
  exact (ref_eq_conv T n m k hm (bestCorr T n m k) hmem hub).symm

/-- The self-join running maximum, written over the admissible list
itself. -/
def bestCorrAdm (T : ℕ → ℝ) (n m k : ℕ) : ℝ :=
  ((admList (n - m + 1) (excl_zone m) k).map (rho T m k)).foldl max
    (if k ≤ excl_zone m then 0 else rho T m k 0)

/-- `bestCorr` only aggregates over the admissible set: it equals the fold
over the admissible list. -/
lemma bestCorr_eq_adm (T : ℕ → ℝ) (n m k : ℕ) (hk : k < n - m + 1) :
    bestCorr T n m k = bestCorrAdm T n m k := by
  obtain ⟨a1, a2, a3⟩ := foldl_max_spec
    ((admList (n - m + 1) (excl_zone m) k).map (rho T m k))
    (if k ≤ excl_zone m then 0 else rho T m k 0)
  apply le_antisymm
  · rcases bestCorr_attain T n m k hk with ⟨h0, hkE⟩ | ⟨j, hj, hadm, heq⟩
    · rw [h0]
      refine le_trans (le_of_eq ?_) a1
      rw [if_pos hkE]
    · rw [heq]
      exact a2 _ (List.mem_map.mpr ⟨j, (mem_admList _ _ _ _).mpr ⟨hj, hadm⟩, rfl⟩)
  · rcases a3 with h | h
    · show bestCorrAdm T n m k ≤ _
      rw [show bestCorrAdm T n m k
          = (if k ≤ excl_zone m then 0 else rho T m k 0) from h]
      by_cases hkE : k ≤ excl_zone m
      · rw [if_pos hkE]
        have := (bestCorr_spec T n m k).1
        rw [if_pos hkE] at this
        exact this
      · rw [if_neg hkE]
        exact bestCorr_ub T n m k hk 0 (by omega) (Or.inr (by omega))
    · obtain ⟨j, hj, hjeq⟩ := List.mem_map.mp h
      rw [mem_admList] at hj
      show bestCorrAdm T n m k ≤ _
      rw [show bestCorrAdm T n m k = rho T m k j from hjeq.symm]
      exact bestCorr_ub T n m k hk j hj.1 hj.2

/-- The squared self-join distance is symmetric. -/
lemma distsq_comm (T : ℕ → ℝ) (m i j : ℕ) : distsq T m i j = distsq T m j i := by
  unfold distsq
  rw [QTval_comm]
  ring

/-- Order description of `bestDist`. -/
lemma bestDist_spec (T : ℕ → ℝ) (n m k : ℕ) :
    bestDist T n m k ≤ (if k ≤ excl_zone m then ⊤ else ((distsq T m 0 k : ℝ) : WithTop ℝ))
    ∧ (∀ x ∈ (List.range' 1 (k - excl_zone m - 1)).map
          (fun a => ((distsq T m a k : ℝ) : WithTop ℝ))
        ++ (List.range' (k + excl_zone m + 1)
            (n - m + 1 - (k + excl_zone m + 1))).map
              (fun j => ((distsq T m k j : ℝ) : WithTop ℝ)),
        bestDist T n m k ≤ x)
    ∧ (bestDist T n m k
          = (if k ≤ excl_zone m then ⊤ else ((distsq T m 0 k : ℝ) : WithTop ℝ))
        ∨ bestDist T n m k
            ∈ (List.range' 1 (k - excl_zone m - 1)).map
                (fun a => ((distsq T m a k : ℝ) : WithTop ℝ))
              ++ (List.range' (k + excl_zone m + 1)
                  (n - m + 1 - (k + excl_zone m + 1))).map
                    (fun j => ((distsq T m k j : ℝ) : WithTop ℝ))) :=
  foldl_min_spec _ _

/-- Every admissible squared distance bounds the raw-Euclidean running
minimum from above. -/
lemma bestDist_lb (T : ℕ → ℝ) (n m k : ℕ) (hk : k < n - m + 1) :
    ∀ j, j < n - m + 1 → (k + excl_zone m < j ∨ j + excl_zone m < k) →
      bestDist T n m k ≤ ((distsq T m k j : ℝ) : WithTop ℝ) := by
  intro j hj hadm
  obtain ⟨h1, h2, _⟩ := bestDist_spec T n m k
  rcases hadm with hr | hc
  · refine h2 _ (List.mem_append_right _ ?_)
    exact List.mem_map.mpr ⟨j, by rw [List.mem_range'_1]; omega, rfl⟩
  · by_cases hj0 : j = 0
    · subst hj0
      have hkE : ¬ k ≤ excl_zone m := by omega
      rw [if_neg hkE] at h1
      rw [distsq_comm T m k 0]
      exact h1
    · have hmem : ((distsq T m j k : ℝ) : WithTop ℝ)
          ∈ (List.range' 1 (k - excl_zone m - 1)).map
              (fun a => ((distsq T m a k : ℝ) : WithTop ℝ)) :=
        List.mem_map.mpr ⟨j, by rw [List.mem_range'_1]; omega, rfl⟩
      rw [distsq_comm T m k j]
      exact h2 _ (List.mem_append_left _ hmem)

/-- The raw-Euclidean running minimum is the INFINITY sentinel (only
possible inside the exclusion zone) or an admissible squared distance. -/
lemma bestDist_attain (T : ℕ → ℝ) (n m k : ℕ) (hk : k < n - m + 1) :
    (bestDist T n m k = ⊤ ∧ k ≤ excl_zone m)
      ∨ ∃ j, j < n - m + 1 ∧ (k + excl_zone m < j ∨ j + excl_zone m < k)
          ∧ bestDist T n m k = ((distsq T m k j : ℝ) : WithTop ℝ) := by
  obtain ⟨h1, h2, h3⟩ := bestDist_spec T n m k
  rcases h3 with h | h
  · by_cases hkE : k ≤ excl_zone m
    · rw [if_pos hkE] at h
      exact Or.inl ⟨h, hkE⟩
    · rw [if_neg hkE] at h
      refine Or.inr ⟨0, by omega, Or.inr (by omega), ?_⟩
      rw [h, distsq_comm T m 0 k]
  · rcases List.mem_append.mp h with hmem | hmem
    · obtain ⟨a, ha, haeq⟩ := List.mem_map.mp hmem
      rw [List.mem_range'_1] at ha
      refine Or.inr ⟨a, by omega, Or.inr (by omega), ?_⟩
      rw [← haeq, distsq_comm T m a k]
    · obtain ⟨a, ha, haeq⟩ := List.mem_map.mp hmem
      rw [List.mem_range'_1] at ha
      exact Or.inr ⟨a, by omega, Or.inl (by omega), haeq.symm⟩

/-- The raw-Euclidean running minimum, written over the admissible list
itself. -/
def bestDistAdm (T : ℕ → ℝ) (n m k : ℕ) : WithTop ℝ :=
  ((admList (n - m + 1) (excl_zone m) k).map
      (fun j => ((distsq T m k j : ℝ) : WithTop ℝ))).foldl min
    (if k ≤ excl_zone m then ⊤ else ((distsq T m k 0 : ℝ) : WithTop ℝ))

/-- `bestDist` only aggregates over the admissible set. -/
lemma bestDist_eq_adm (T : ℕ → ℝ) (n m k : ℕ) (hk : k < n - m + 1) :
    bestDist T n m k = bestDistAdm T n m k := by
  obtain ⟨a1, a2, a3⟩ := foldl_min_spec
    ((admList (n - m + 1) (excl_zone m) k).map
      (fun j => ((distsq T m k j : ℝ) : WithTop ℝ)))
    (if k ≤ excl_zone m then ⊤ else ((distsq T m k 0 : ℝ) : WithTop ℝ))
  apply le_antisymm
  · rcases a3 with h | h
    · show _ ≤ bestDistAdm T n m k
      rw [show bestDistAdm T n m k
          = (if k ≤ excl_zone m then ⊤ else ((distsq T m k 0 : ℝ) : WithTop ℝ)) from h]
      by_cases hkE : k ≤ excl_zone m
      · rw [if_pos hkE]
        exact le_top
      · rw [if_neg hkE]
        exact bestDist_lb T n m k hk 0 (by omega) (Or.inr (by omega))
    · obtain ⟨j, hj, hjeq⟩ := List.mem_map.mp h
      rw [mem_admList] at hj
      show _ ≤ bestDistAdm T n m k
      rw [show bestDistAdm T n m k = ((distsq T m k j : ℝ) : WithTop ℝ) from hjeq.symm]
      exact bestDist_lb T n m k hk j hj.1 hj.2
  · rcases bestDist_attain T n m k hk with ⟨h0, hkE⟩ | ⟨j, hj, hadm, heq⟩
    · rw [h0]
      exact le_top
    · rw [heq]
      exact a2 _ (List.mem_map.mpr ⟨j, (mem_admList _ _ _ _).mpr ⟨hj, hadm⟩, rfl⟩)

/-- The code's exclusion-zone width is exactly ⌈m/4⌉. -/
lemma excl_zone_eq_ceil (m : ℕ) : excl_zone m = Nat.ceil ((m : ℚ) / 4) := by
  rcases Nat.eq_zero_or_pos m with h0 | hpos
  · subst h0
    simp [excl_zone]
  · symm
    rw [Nat.ceil_eq_iff (by unfold excl_zone; omega)]
    constructor
    · rw [lt_div_iff₀ (by norm_num : (0 : ℚ) < 4)]
      have h4 : ((m + 3) / 4 - 1) * 4 < m := by omega
      have hge : 1 ≤ (m + 3) / 4 := by omega
      calc ((((m + 3) / 4 - 1 : ℕ)) : ℚ) * 4
          = (((((m + 3) / 4 - 1) * 4 : ℕ)) : ℚ) := by push_cast; ring
        _ < m := by exact_mod_cast h4
    · rw [div_le_iff₀ (by norm_num : (0 : ℚ) < 4)]
      have h4 : m ≤ (m + 3) / 4 * 4 := by omega
      calc (m : ℚ) ≤ (((m + 3) / 4 * 4 : ℕ) : ℚ) := by exact_mod_cast h4
        _ = (((m + 3) / 4 : ℕ) : ℚ) * 4 := by push_cast; ring

/-! Concrete series used to settle the claims on explicit inputs. -/

/-- The six-point series (0, 1, 2, 1, 0, −1): every admissible correlation
of window 0 is −3 < 0, which separates the loop's 0-sentinel from a pure
admissible reduction. -/
def Tcex : ℕ → ℝ
  | 0 => 0
  | 1 => 1
  | 2 => 2
  | 3 => 1
  | 4 => 0
  | _ => -1

/-- The ramp series T[k] = k: all windows are perfectly correlated. -/
def Tramp : ℕ → ℝ := fun k => k

/-- The constant series T[k] = 1: every window is degenerate. -/
def Tone : ℕ → ℝ := fun _ => 1

/-- The series (1, 2, 3, 4, 5, 6) of the dot-product golden test. -/
def Tsix : ℕ → ℝ := fun k => k + 1

/-- The query (1, 0, −1) of the dot-product golden test. -/
def Qgold : ℕ → ℝ
  | 0 => 1
  | 1 => 0
  | _ => -1

/-- Product of the two inverse square roots of the same nonnegative
number. -/
lemma inv_sqrt_mul_inv_sqrt {a : ℝ} (ha : 0 ≤ a) :
    1 / Real.sqrt a * (1 / Real.sqrt a) = 1 / a := by
  rw [div_mul_div_comm, one_mul, Real.mul_self_sqrt ha]

lemma Tcex_sigma_0 : win_sigma Tcex 3 0 = Real.sqrt (2 / 3) := by
  unfold win_sigma win_mu
  norm_num [Finset.sum_range_succ, Tcex]

lemma Tcex_sigma_2 : win_sigma Tcex 3 2 = Real.sqrt (2 / 3) := by
  unfold win_sigma win_mu
  norm_num [Finset.sum_range_succ, Tcex]

lemma Tcex_sigma_3 : win_sigma Tcex 3 3 = Real.sqrt (2 / 3) := by
  unfold win_sigma win_mu
  norm_num [Finset.sum_range_succ, Tcex]

lemma Tcex_rho_02 : rho Tcex 3 0 2 = -3 := by
  unfold rho sigma_inv
  rw [Tcex_sigma_0, Tcex_sigma_2]
  have hq : QTval Tcex Tcex 3 0 2 = 1 := by
    unfold QTval
    norm_num [Finset.sum_range_succ, Tcex]
  have h0 : win_mu Tcex 3 0 = 1 := by
    unfold win_mu
    norm_num [Finset.sum_range_succ, Tcex]
  have h2 : win_mu Tcex 3 2 = 1 := by
    unfold win_mu
    norm_num [Finset.sum_range_succ, Tcex]
  rw [hq, h0, h2, mul_assoc, inv_sqrt_mul_inv_sqrt (by norm_num : (0:ℝ) ≤ 2 / 3)]
  norm_num

lemma Tcex_rho_03 : rho Tcex 3 0 3 = -3 := by
  unfold rho sigma_inv
  rw [Tcex_sigma_0, Tcex_sigma_3]
  have hq : QTval Tcex Tcex 3 0 3 = -2 := by
    unfold QTval
    norm_num [Finset.sum_range_succ, Tcex]
  have h0 : win_mu Tcex 3 0 = 1 := by
    unfold win_mu
    norm_num [Finset.sum_range_succ, Tcex]
  have h3 : win_mu Tcex 3 3 = 0 := by
    unfold win_mu
    norm_num [Finset.sum_range_succ, Tcex]
  rw [hq, h0, h3, mul_assoc, inv_sqrt_mul_inv_sqrt (by norm_num : (0:ℝ) ≤ 2 / 3)]
  norm_num

lemma Tcex_bestCorr_0 : bestCorr Tcex 6 3 0 = 0 := by
  have h : bestCorr Tcex 6 3 0
      = max (max 0 (rho Tcex 3 0 2)) (rho Tcex 3 0 3) := rfl
  rw [h, Tcex_rho_02, Tcex_rho_03,
    max_eq_left (by norm_num : (-3:ℝ) ≤ 0), max_eq_left (by norm_num : (-3:ℝ) ≤ 0)]

lemma Tcex_core_0 : selfjoin_core Tcex 6 3 0 = Real.sqrt 6 := by
  rw [selfjoin_core_eq Tcex 6 3 0 (by norm_num), Tcex_bestCorr_0]
  norm_num

lemma Tcex_ref_0 : ref_selfjoin Tcex 6 3 0 = ((Real.sqrt 12 : ℝ) : WithTop ℝ) := by
  have h : ref_selfjoin Tcex 6 3 0
      = min (min ⊤ ((dz Tcex 3 0 2 : ℝ) : WithTop ℝ)) ((dz Tcex 3 0 3 : ℝ) : WithTop ℝ) := rfl
  have h2 : dz Tcex 3 0 2 = Real.sqrt 12 := by
    unfold dz
    rw [Tcex_rho_02]
    norm_num
  have h3 : dz Tcex 3 0 3 = Real.sqrt 12 := by
    unfold dz
    rw [Tcex_rho_03]
    norm_num
  rw [h, h2, h3, min_eq_right le_top, min_self]

lemma Tcex_init_P0 : (selfjoin_init Tcex 6 3).P 0 = 0 := by
  rw [selfjoin_init_P Tcex 6 3 0 (by norm_num)]
  have h : partialCorr Tcex 6 3 0 0
      = max (max 0 (rho Tcex 3 0 2)) (rho Tcex 3 0 3) := rfl
  rw [h, Tcex_rho_02, Tcex_rho_03,
    max_eq_left (by norm_num : (-3:ℝ) ≤ 0), max_eq_left (by norm_num : (-3:ℝ) ≤ 0)]

lemma Tcex_init_P2 : (selfjoin_init Tcex 6 3).P 2 = -3 := by
  rw [selfjoin_init_P Tcex 6 3 2 (by norm_num)]
  have h : partialCorr Tcex 6 3 0 2 = rho Tcex 3 0 2 := rfl
  rw [h, Tcex_rho_02]

lemma Tcex_init_P3 : (selfjoin_init Tcex 6 3).P 3 = -3 := by
  rw [selfjoin_init_P Tcex 6 3 3 (by norm_num)]
  have h : partialCorr Tcex 6 3 0 3 = rho Tcex 3 0 3 := rfl
  rw [h, Tcex_rho_03]

lemma Tramp_rho_02_nonneg : 0 ≤ rho Tramp 3 0 2 := by
  unfold rho
  refine mul_nonneg (mul_nonneg ?_ ?_) ?_
  · have h : QTval Tramp Tramp 3 0 2 - (3:ℕ) * win_mu Tramp 3 0 * win_mu Tramp 3 2 = 2 := by
      unfold QTval win_mu
      norm_num [Finset.sum_range_succ, Tramp]
    rw [h]
    norm_num
  · exact one_div_nonneg.mpr (win_sigma_nonneg Tramp 3 0)
  · exact one_div_nonneg.mpr (win_sigma_nonneg Tramp 3 2)

lemma Tramp_rho_13_nonneg : 0 ≤ rho Tramp 3 1 3 := by
  unfold rho
  refine mul_nonneg (mul_nonneg ?_ ?_) ?_
  · have h : QTval Tramp Tramp 3 1 3 - (3:ℕ) * win_mu Tramp 3 1 * win_mu Tramp 3 3 = 2 := by
      unfold QTval win_mu
      norm_num [Finset.sum_range_succ, Tramp]
    rw [h]
    norm_num
  · exact one_div_nonneg.mpr (win_sigma_nonneg Tramp 3 1)
  · exact one_div_nonneg.mpr (win_sigma_nonneg Tramp 3 3)

lemma Tone_sigma (m i : ℕ) (hm : m ≠ 0) : win_sigma Tone m i = 0 := by
  unfold win_sigma win_mu Tone
  have hmR : (m : ℝ) ≠ 0 := Nat.cast_ne_zero.mpr hm
  simp only [one_pow, Finset.sum_const, Finset.card_range, nsmul_eq_mul, mul_one]
  rw [div_self hmR]
  norm_num

/-! Degenerate windows: a zero standard deviation zeroes every correlation
it touches (over ℝ, 1/0 = 0, matching the spec's σ⁻¹ = 0 convention). -/

/-- A degenerate left window zeroes the correlation. -/
lemma rho_zero_left (T : ℕ → ℝ) (m i j : ℕ) (h : win_sigma T m i = 0) :
    rho T m i j = 0 := by
  unfold rho sigma_inv
  rw [h]
  simp

/-- A degenerate right window zeroes the correlation. -/
lemma rho_zero_right (T : ℕ → ℝ) (m i j : ℕ) (h : win_sigma T m j = 0) :
    rho T m i j = 0 := by
  unfold rho sigma_inv
  rw [h]
  simp

/-- The running maximum of a degenerate window is exactly the sentinel
value 0. -/
lemma bestCorr_degenerate (T : ℕ → ℝ) (n m i : ℕ) (hi : i < n - m + 1)
    (h : win_sigma T m i = 0) : bestCorr T n m i = 0 := by
  obtain ⟨h1, h2, h3⟩ := bestCorr_spec T n m i
  rcases h3 with hc | hc
  · rw [hc]
    by_cases hiE : i ≤ excl_zone m
    · rw [if_pos hiE]
    · rw [if_neg hiE]
      exact rho_zero_right T m 0 i h
  · rcases List.mem_append.mp hc with hmem | hmem
    · obtain ⟨a, _, ha⟩ := List.mem_map.mp hmem
      rw [← ha]
      exact rho_zero_right T m a i h
    · obtain ⟨a, _, ha⟩ := List.mem_map.mp hmem
      rw [← ha]
      exact rho_zero_left T m i a h

/-! The ab-join reference minimum. -/

/-- Order description of `bestCorrAb`. -/
lemma bestCorrAb_spec (T1 T2 : ℕ → ℝ) (n2 m j : ℕ) :
    rho_ab T1 T2 m j 0 ≤ bestCorrAb T1 T2 n2 m j
    ∧ (∀ x ∈ (List.range' 1 (n2 - m + 1 - 1)).map (rho_ab T1 T2 m j),
        x ≤ bestCorrAb T1 T2 n2 m j)
    ∧ (bestCorrAb T1 T2 n2 m j = rho_ab T1 T2 m j 0
        ∨ bestCorrAb T1 T2 n2 m j
            ∈ (List.range' 1 (n2 - m + 1 - 1)).map (rho_ab T1 T2 m j)) :=
  foldl_max_spec _ _

/-- Every column score is bounded by the ab-join running maximum. -/
lemma bestCorrAb_ub (T1 T2 : ℕ → ℝ) (n2 m j : ℕ) :
    ∀ i, i < n2 - m + 1 → rho_ab T1 T2 m j i ≤ bestCorrAb T1 T2 n2 m j := by
  intro i hi
  obtain ⟨h1, h2, _⟩ := bestCorrAb_spec T1 T2 n2 m j
  by_cases hi0 : i = 0
  · subst hi0
    exact h1
  · refine h2 _ (List.mem_map.mpr ⟨i, ?_, rfl⟩)
    rw [List.mem_range'_1]
    omega

/-- The ab-join running maximum is attained at some column of T2. -/
lemma bestCorrAb_attain (T1 T2 : ℕ → ℝ) (n2 m j : ℕ) :
    ∃ i, i < n2 - m + 1 ∧ bestCorrAb T1 T2 n2 m j = rho_ab T1 T2 m j i := by
  obtain ⟨_, _, h3⟩ := bestCorrAb_spec T1 T2 n2 m j
  rcases h3 with h | h
  · exact ⟨0, by omega, h⟩
  · obtain ⟨a, ha, haeq⟩ := List.mem_map.mp h
    rw [List.mem_range'_1] at ha
    exact ⟨a, by omega, haeq.symm⟩

/-- The ab-join loop output is the minimum z-normalized distance over all
windows of T2 — there is no exclusion zone. -/
lemma abjoin_eq_min (T1 T2 : ℕ → ℝ) (n1 n2 m : ℕ) (hm : m ≠ 0) :
    ∀ j, j < n1 - m + 1 →
      ((abjoin_core T1 T2 n1 n2 m j : ℝ) : WithTop ℝ)
        = ((List.range (n2 - m + 1)).map
            (fun i => ((dz_ab T1 T2 m j i : ℝ) : WithTop ℝ))).foldl min ⊤ := by
  intro j hj
  rw [abjoin_core_eq T1 T2 n1 n2 m j hj]
  obtain ⟨ix, hix, hixeq⟩ := bestCorrAb_attain T1 T2 n2 m j
  obtain ⟨h1, h2, h3⟩ := foldl_min_spec
    ((List.range (n2 - m + 1)).map
      (fun i => ((dz_ab T1 T2 m j i : ℝ) : WithTop ℝ))) (⊤ : WithTop ℝ)
  set F := ((List.range (n2 - m + 1)).map
      (fun i => ((dz_ab T1 T2 m j i : ℝ) : WithTop ℝ))).foldl min ⊤ with hF
  have hFle : F ≤ ((dz_ab T1 T2 m j ix : ℝ) : WithTop ℝ) :=
    h2 _ (List.mem_map.mpr ⟨ix, List.mem_range.mpr hix, rfl⟩)
  have hFne : F ≠ ⊤ := by
    intro htop
    rw [htop] at hFle
    exact (lt_irrefl _ (lt_of_le_of_lt hFle (WithTop.coe_lt_top _)))
  rcases h3 with h | h
  · exact absurd h hFne
  · obtain ⟨i1, hi1, hi1eq⟩ := List.mem_map.mp h
    have hge : ((dz_ab T1 T2 m j ix : ℝ) : WithTop ℝ) ≤ F := by
      rw [← hi1eq, WithTop.coe_le_coe]
      unfold dz_ab
      rw [← hixeq]
      exact dz_conv_antitone m hm (bestCorrAb_ub T1 T2 n2 m j i1 (List.mem_range.mp hi1))
    have hFeq : F = ((dz_ab T1 T2 m j ix : ℝ) : WithTop ℝ) := le_antisymm hFle hge
    rw [hFeq, WithTop.coe_eq_coe]
    unfold dz_ab
    rw [← hixeq]

/-! The claims. -/

/-- C1 (amended): for valid inputs, the diagonal STOMP self-join equals
the reference O(L²) double loop that materializes every admissible
pairwise distance and min-reduces — provided every index inside the
exclusion zone has at least one admissible partner of nonnegative
correlation.  (Without that proviso the loop's 0-valued exclusion sentinel
leaks into rows 0..E, see the counterexample.)  Equality is exact over
real arithmetic. -/
theorem claim_C1_stomp_equals_reference (T : ℕ → ℝ) (n m : ℕ)
    (hm : 3 ≤ m) (hn : m + 1 ≤ n)
    (hgood : ∀ i, i < n - m + 1 → i ≤ excl_zone m →
      ∃ j ∈ admList (n - m + 1) (excl_zone m) i, 0 ≤ rho T m i j) :
    ∀ k, k < n - m + 1 →
      ((selfjoin_core T n m k : ℝ) : WithTop ℝ) = ref_selfjoin T n m k :=
  selfjoin_eq_ref T n m (by omega) hgood

/-- C1 witness: on the ramp series with n = 6, m = 3 every window pair is
perfectly correlated, the proviso holds, and the loop output matches the
reference at index 0. -/
theorem claim_C1_stomp_equals_reference_witness :
    ((selfjoin_core Tramp 6 3 0 : ℝ) : WithTop ℝ) = ref_selfjoin Tramp 6 3 0 :=
  claim_C1_stomp_equals_reference Tramp 6 3 (by norm_num) (by norm_num)
    (by
      intro i hi hiE
      have hE : excl_zone 3 = 1 := rfl
      rw [hE] at hiE
      have hi4 : i < 4 := by omega
      interval_cases i
      · exact ⟨2, by decide, Tramp_rho_02_nonneg⟩
      · exact ⟨3, by decide, Tramp_rho_13_nonneg⟩)
    0 (by norm_num)

/-- C1 counterexample: on T = (0, 1, 2, 1, 0, −1) with m = 3 every
admissible correlation of window 0 is −3, the loop's exclusion sentinel 0
wins, and the code returns √6 where the reference double loop returns
√12: the claim's unconditional equality is false. -/
theorem claim_C1_counterexample :
    ¬ (((selfjoin_core Tcex 6 3 0 : ℝ) : WithTop ℝ) = ref_selfjoin Tcex 6 3 0) := by
  rw [Tcex_core_0, Tcex_ref_0]
  intro h
  rw [WithTop.coe_eq_coe] at h
  have hlt : Real.sqrt 6 < Real.sqrt 12 :=
    Real.sqrt_lt_sqrt (by norm_num) (by norm_num)
  rw [h] at hlt
  exact lt_irrefl _ hlt

/-- C2: a window with zero standard deviation has all its correlations
treated as 0 and its profile entry is √(2m); no NaN can arise (over exact
reals, 1/0 = 0 realizes the spec's σ⁻¹ = 0 convention).  The constant
series is the canonical instance (see the witness). -/
theorem claim_C2_degenerate_window (T : ℕ → ℝ) (n m : ℕ)
    (hm : 3 ≤ m) (hn : m + 1 ≤ n) (i : ℕ) (hi : i < n - m + 1)
    (hσ : win_sigma T m i = 0) :
    (∀ j, rho T m i j = 0 ∧ rho T m j i = 0)
      ∧ selfjoin_core T n m i = Real.sqrt (2 * m) := by
  refine ⟨fun j => ⟨rho_zero_left T m i j hσ, rho_zero_right T m j i hσ⟩, ?_⟩
  rw [selfjoin_core_eq T n m i hi, bestCorr_degenerate T n m i hi hσ]
  norm_num

/-- C2 witness: the constant series T = 1 with n = 6, m = 3: every σ is 0
and the profile entry at index 0 is √6 = √(2m). -/
theorem claim_C2_degenerate_window_witness : selfjoin_core Tone 6 3 0 = Real.sqrt 6 := by
  have h := (claim_C2_degenerate_window Tone 6 3 (by norm_num) (by norm_num) 0
    (by norm_num) (Tone_sigma 3 0 (by norm_num))).2
  rw [h]
  norm_num

/-- C3: every profile entry of the z-normalized self-join is nonnegative,
and the finalization computes √(max(0, 2m·(1 − ρ̂/m))): in exact
arithmetic the Cauchy–Schwarz bound ρ̂ ≤ m makes the clamp the identity,
so the unclamped code equals the clamped formula and no square root of a
negative number occurs. -/
theorem claim_C3_profile_nonneg_clamped (T : ℕ → ℝ) (n m : ℕ)
    (hm : 3 ≤ m) (hn : m + 1 ≤ n) (i : ℕ) (hi : i < n - m + 1) :
    0 ≤ selfjoin_core T n m i
      ∧ selfjoin_core T n m i
          = Real.sqrt (max 0 (2 * m * (1 - bestCorr T n m i / m))) := by
  have hm0 : m ≠ 0 := by omega
  have harg : 0 ≤ 2 * (m : ℝ) * (1 - bestCorr T n m i / m) := by
    rw [dz_conv_arg m hm0]
    have := bestCorr_le T n m i hm0
    linarith
  constructor
  · rw [selfjoin_core_eq T n m i hi]
    exact Real.sqrt_nonneg _
  · rw [selfjoin_core_eq T n m i hi, max_eq_right harg]

/-- C3 witness: instance at the constant series, n = 6, m = 3, i = 0. -/
theorem claim_C3_profile_nonneg_clamped_witness :
    0 ≤ selfjoin_core Tone 6 3 0
      ∧ selfjoin_core Tone 6 3 0
          = Real.sqrt (max 0 (2 * 3 * (1 - bestCorr Tone 6 3 0 / 3))) := by
  have h := claim_C3_profile_nonneg_clamped Tone 6 3 (by norm_num) (by norm_num) 0
    (by norm_num)
  exact_mod_cast h

/-- C4 (amended): after the first-row initialization the exclusion zone
P[0..E] holds the sentinel 0 — not −∞ — and the initial column
accumulator starts at the sentinel P[0] = 0, so best_0 is the maximum of
the sentinel 0 together with P[E+1..L−1]. -/
theorem claim_C4_init_sentinel (T : ℕ → ℝ) (n m : ℕ)
    (hm : 3 ≤ m) (hn : m + 1 ≤ n) :
    (∀ j, 1 ≤ j → j ≤ excl_zone m → j < n - m + 1 → (selfjoin_init T n m).P j = 0)
    ∧ ((selfjoin_init T n m).P 0
        = ((List.range' (excl_zone m + 1) (n - m + 1 - (excl_zone m + 1))).map
            (rho T m 0)).foldl max 0)
    ∧ (∀ j, excl_zone m < j → j < n - m + 1 → (selfjoin_init T n m).P j = rho T m 0 j) := by
  refine ⟨fun j hj1 hjE hjL => ?_, ?_, fun j hjE hjL => ?_⟩
  · rw [selfjoin_init_P T n m j hjL]
    unfold partialCorr
    have hmin : min 0 (j - excl_zone m - 1) = 0 := by omega
    have hif : ¬ (j = 0 ∨ j ≤ 0) := by omega
    rw [hmin, if_neg hif, if_pos hjE]
    simp
  · rw [selfjoin_init_P T n m 0 (by omega)]
    unfold partialCorr
    have hmin : min 0 (0 - excl_zone m - 1) = 0 := by omega
    rw [hmin, if_pos (Or.inl rfl), if_pos (Nat.zero_le _)]
    simp
  · rw [selfjoin_init_P T n m j hjL]
    unfold partialCorr
    have hmin : min 0 (j - excl_zone m - 1) = 0 := by omega
    have hif : ¬ (j = 0 ∨ j ≤ 0) := by omega
    have hifE : ¬ j ≤ excl_zone m := by omega
    rw [hmin, if_neg hif, if_neg hifE]
    simp

/-- C4 witness: instance at T = (0, 1, 2, 1, 0, −1), n = 6, m = 3:
P[1] = 0 after initialization. -/
theorem claim_C4_init_sentinel_witness : (selfjoin_init Tcex 6 3).P 1 = 0 :=
  (claim_C4_init_sentinel Tcex 6 3 (by norm_num) (by norm_num)).1 1
    (by norm_num) (by decide) (by norm_num)

/-- C4 counterexample: on T = (0, 1, 2, 1, 0, −1), m = 3 (E = 1, L = 4)
the initialization leaves P[0] = 0 while the maximum of P[2..3] is −3: the
initial accumulator is NOT the maximum of P[E+1..L−1] only, and the
exclusion entries hold 0.0 rather than −∞. -/
theorem claim_C4_counterexample :
    ¬ ((selfjoin_init Tcex 6 3).P 0
        = max ((selfjoin_init Tcex 6 3).P 2) ((selfjoin_init Tcex 6 3).P 3)) := by
  rw [Tcex_init_P0, Tcex_init_P2, Tcex_init_P3, max_self]
  norm_num

/-- C5: the exclusion zone is E = ⌈m/4⌉ and both self-join flavors
aggregate only over admissible partners: the z-normalized profile is the
distance conversion of the maximum correlation over the admissible list
(with sentinel 0 inside the zone), the raw-Euclidean profile the square
root of the minimum admissible squared distance (with sentinel +∞ inside
the zone); no pair with |i − j| ≤ E ever contributes. -/
theorem claim_C5_exclusion_zone (T : ℕ → ℝ) (n m : ℕ)
    (hm : 3 ≤ m) (hn : m + 1 ≤ n) :
    excl_zone m = Nat.ceil ((m : ℚ) / 4)
    ∧ (∀ k, k < n - m + 1 →
        selfjoin_core T n m k
          = Real.sqrt (2 * m * (1 - bestCorrAdm T n m k / m)))
    ∧ (∀ k, k < n - m + 1 →
        selfjoin_ed_core T n m k = sqrtT (bestDistAdm T n m k)) := by
  refine ⟨excl_zone_eq_ceil m, fun k hk => ?_, fun k hk => ?_⟩
  · rw [selfjoin_core_eq T n m k hk, bestCorr_eq_adm T n m k hk]
  · rw [selfjoin_ed_core_eq T n m k hk, bestDist_eq_adm T n m k hk]

/-- C5 witness: instance at the constant series, n = 6, m = 3, k = 0. -/
theorem claim_C5_exclusion_zone_witness :
    selfjoin_core Tone 6 3 0
      = Real.sqrt (2 * 3 * (1 - bestCorrAdm Tone 6 3 0 / 3)) := by
  have h := (claim_C5_exclusion_zone Tone 6 3 (by norm_num) (by norm_num)).2.1 0
    (by norm_num)
  exact_mod_cast h

/-- C6: the ab-join applies no exclusion zone: P[j] is the minimum
z-normalized distance from window j of T1 to every window i ∈ [0, L2) of
T2; and at every outer iteration i ≥ 1 the dot-product row's cell 0 holds
the re-seeded direct length-m dot product of T1[0..m] against
T2[i..i+m]. -/
theorem claim_C6_abjoin_no_exclusion (T1 T2 : ℕ → ℝ) (n1 n2 m : ℕ)
    (hm : 3 ≤ m) (h1 : m + 1 ≤ n1) (h2 : m + 1 ≤ n2) :
    (∀ j, j < n1 - m + 1 →
      ((abjoin_core T1 T2 n1 n2 m j : ℝ) : WithTop ℝ)
        = ((List.range (n2 - m + 1)).map
            (fun i => ((dz_ab T1 T2 m j i : ℝ) : WithTop ℝ))).foldl min ⊤)
    ∧ (∀ r, 1 ≤ r → r ≤ n2 - m + 1 - 1 →
        (abjoin_steps T1 T2 n1 n2 m r).QT 0
          = sliding_dot_product_naive T1 (fun k => T2 (r + k)) m m 0) := by
  constructor
  · exact abjoin_eq_min T1 T2 n1 n2 m (by omega)
  · intro r hr1 hr2
    rw [(abjoin_inv T1 T2 n1 n2 m r hr2).1 0 (by omega), ab_seed_dot]

/-- C6 witness: instance at two ramp series, n1 = n2 = 6, m = 3: the
re-seeded cell at outer iteration 1 is the direct dot product. -/
theorem claim_C6_abjoin_no_exclusion_witness :
    (abjoin_steps Tramp Tramp 6 6 3 1).QT 0
      = sliding_dot_product_naive Tramp (fun k => Tramp (1 + k)) 3 3 0 :=
  (claim_C6_abjoin_no_exclusion Tramp Tramp 6 6 3 (by norm_num) (by norm_num)
    (by norm_num)).2 1 (by norm_num) (by norm_num)

/-- C7: the naive sliding dot product computes
QT[i] = Σ_{k<m} Q[k]·T[i+k] for every i ≤ n − m; on T = (1,…,6),
Q = (1, 0, −1), m = 3 it returns (−2, −2, −2, −2). -/
theorem claim_C7_sliding_dot_naive :
    (∀ (T Q : ℕ → ℝ) (n m i : ℕ), i < n - m + 1 →
      sliding_dot_product_naive T Q n m i = ∑ k ∈ Finset.range m, Q k * T (i + k))
    ∧ (∀ i, i < 4 → sliding_dot_product_naive Tsix Qgold 6 3 i = -2) := by
  constructor
  · exact fun T Q n m i hi => sdp_naive_eq T Q n m i hi
  · intro i hi
    rw [sdp_naive_eq Tsix Qgold 6 3 i (by omega)]
    interval_cases i <;> norm_num [Finset.sum_range_succ, Tsix, Qgold]

/-- C7 witness: the golden value at index 0. -/
theorem claim_C7_sliding_dot_naive_witness :
    sliding_dot_product_naive Tsix Qgold 6 3 0 = -2 :=
  claim_C7_sliding_dot_naive.2 0 (by norm_num)

/-- C8 (amended): with n < m the operations that reach the (spec-modelled)
windowed statistics — selfjoin (both flavors), abjoin, compute_mean_std —
fail with ShapeMismatch; but the façade's sliding_dot_product performs no
shape validation and completes without error, so not every kernel
operation fails. -/
theorem claim_C8_shape_mismatch (g : Bool) (T T2 Q : ℕ → ℝ) (n n2 m : ℕ)
    (s : ℤ) (nm : Bool) (h : n < m) :
    backend_selfjoin g T n m s nm = .error .ShapeMismatch
    ∧ backend_abjoin g T T2 n n2 m s nm = .error .ShapeMismatch
    ∧ backend_mean_std g T n m s = .error .ShapeMismatch
    ∧ (backend_sdp g T Q n m s).isOk = true := by
  refine ⟨?_, ?_, ?_, rfl⟩
  · unfold backend_selfjoin selfjoin selfjoin_ed compute_mean_std compute_squared_sum
    cases nm <;> simp [h, Except.map]
  · unfold backend_abjoin abjoin abjoin_ed compute_mean_std compute_squared_sum
    cases nm <;> simp [h, Except.map]
  · unfold backend_mean_std compute_mean_std
    simp [h]

/-- C8 witness: n = 2 < m = 3 makes the selfjoin façade fail with
ShapeMismatch. -/
theorem claim_C8_shape_mismatch_witness :
    backend_selfjoin true Tone 2 3 0 true = .error .ShapeMismatch :=
  (claim_C8_shape_mismatch true Tone Tone Tone 2 6 3 0 true (by norm_num)).1

/-- C8 counterexample: the façade's sliding_dot_product succeeds on
n = 2 < m = 3 instead of failing with ShapeMismatch. -/
theorem claim_C8_counterexample :
    (backend_sdp true Tone Tone 2 3 0).isOk = true := rfl

/-- C9 (amended): the CPU façade kernels never consult the
initialization flag: every kernel entry point returns exactly the same
result whether or not the backend is initialized (only initialize and
finalize themselves enforce the lifecycle). -/
theorem claim_C9_kernels_ignore_init_flag (g : Bool) (T T2 Q : ℕ → ℝ)
    (n n2 m : ℕ) (s : ℤ) (nm : Bool) (us : ℕ) :
    backend_selfjoin g T n m s nm = backend_selfjoin true T n m s nm
    ∧ backend_abjoin g T T2 n n2 m s nm = backend_abjoin true T T2 n n2 m s nm
    ∧ backend_sdp g T Q n m s = backend_sdp true T Q n m s
    ∧ backend_mean_std g T n m s = backend_mean_std true T n m s
    ∧ backend_sleep_us g us s = backend_sleep_us true us s :=
  ⟨rfl, rfl, rfl, rfl, rfl⟩

/-- C9 counterexample: a selfjoin call on the uninitialized backend
(g_initialized = false) computes a result instead of failing with
NotInitialized. -/
theorem claim_C9_counterexample :
    (backend_selfjoin false Tone 6 3 0 true).isOk = true := rfl

/-- C10: the stream argument is cast away by every CPU façade operation:
for any two stream values the observable results are identical. -/
theorem claim_C10_stream_ignored (g : Bool) (T T2 Q : ℕ → ℝ)
    (n n2 m : ℕ) (s1 s2 : ℤ) (nm : Bool) (us : ℕ) :
    backend_selfjoin g T n m s1 nm = backend_selfjoin g T n m s2 nm
    ∧ backend_abjoin g T T2 n n2 m s1 nm = backend_abjoin g T T2 n n2 m s2 nm
    ∧ backend_sdp g T Q n m s1 = backend_sdp g T Q n m s2
    ∧ backend_mean_std g T n m s1 = backend_mean_std g T n m s2
    ∧ backend_sleep_us g us s1 = backend_sleep_us g us s2 :=
  ⟨rfl, rfl, rfl, rfl, rfl⟩

end QuickMP
